import Mathlib

/-!
LRU cache (`lru.go`): shallow embedding and verification.

The Go program keeps a `container/list` doubly linked list of `*entry`
(front = most recently used) together with a map from keys to
`*list.Element`.  The embedding makes the pointer structure explicit:

* a `*list.Element` is a natural number, an address into `heap`;
* `heap` holds, for every element ever allocated by `PushFront`, the `entry`
  its `Value` points to (elements are never freed, so a stale pointer still
  dereferences, as under Go's garbage collector);
* `itemList` is the chain of the linked list read front to back; an element
  `e` satisfies `e.list == l` exactly when it occurs in the chain;
* `itemCache` is the Go map, a finite partial function from keys to elements;
* `expelCallback` is a nullable Go func; its effect is a transformer of an
  external `world` the callback may act upon (it cannot touch the cache: the
  lock is held while it runs).

Keys are values of a type with decidable equality (Go map keys: comparable and
hashable).  Operations return `Option`: `none` stands for a run-time panic
(nil or invalid pointer dereference).  The `sync.RWMutex` is not a field of the
model: `Add`, `Get` and `Del` are each one uninterrupted critical section, and the
two lock phases of `Get` (`GetLookup`, `GetPromote`) are interleaved with the
other operations in the step function `sysStep`.
-/

set_option linter.unusedSectionVars false

namespace lru

/-- Default size of cache, `DefaultLRUCacheSize`. -/
def DefaultLRUCacheSize : Int := 1024

/-- The items stored in the list, `type entry struct`. -/
structure entry (K V : Type) where
  key : K
  val : V
deriving DecidableEq

/-- State of an `LRUCache` together with the memory its pointers refer to and
the environment its callback acts upon. -/
structure LRUCache (K V σ : Type) where
  /-- field `size int` -/
  size : Int
  /-- field `itemList *list.List`: the elements of the chain, front to back -/
  itemList : List Nat
  /-- field `itemCache map[interface{}]*list.Element` -/
  itemCache : K → Option Nat
  /-- field `expelCallback func(key, val interface{})`, `none` is the nil func -/
  expelCallback : Option (K → V → σ → σ)
  /-- memory: the entry behind each allocated list element -/
  heap : List (entry K V)
  /-- environment the callback acts upon -/
  world : σ

/-- Configuration function, `type option func(*LRUCache)`. -/
abbrev option (K V σ : Type) := LRUCache K V σ → LRUCache K V σ

section ops
variable {K V σ : Type}

/-- Option setting the cache size, `WithCacheSize`. -/
def WithCacheSize (size : Int) : option K V σ :=
  fun c => { c with size := size }

/-- Option setting the expel callback, `WithExpelCallback`. -/
def WithExpelCallback (f : Option (K → V → σ → σ)) : option K V σ :=
  fun c => { c with expelCallback := f }

/-- Constructor `NewLRU(opts ...option)`; `w` is the environment at that time. -/
def NewLRU (w : σ) (opts : List (option K V σ)) : LRUCache K V σ :=
  opts.foldl (fun c opt => opt c)
    { size := DefaultLRUCacheSize, itemList := [], itemCache := fun _ => none,
      expelCallback := none, heap := [], world := w }

/-! ### `container/list` -/

/-- Go `l.PushFront(v)`: allocates a new element holding `v`, links it at the
front and returns it. -/
def PushFront (c : LRUCache K V σ) (v : entry K V) : LRUCache K V σ × Nat :=
  ({ c with heap := c.heap ++ [v], itemList := c.heap.length :: c.itemList },
   c.heap.length)

/-- Go `l.MoveToFront(e)`: nothing when `e` is not an element of `l` or is
already at the front, otherwise `e` is unlinked and relinked at the front. -/
def MoveToFront (c : LRUCache K V σ) (e : Nat) : LRUCache K V σ :=
  if e ∉ c.itemList ∨ c.itemList.head? = some e then c
  else { c with itemList := e :: c.itemList.erase e }

/-- Go `l.Remove(e)`: unlinks `e` when it is an element of `l`. -/
def Remove (c : LRUCache K V σ) (e : Nat) : LRUCache K V σ :=
  if e ∈ c.itemList then { c with itemList := c.itemList.erase e } else c

/-- Go `l.Back()`: the last element, `none` (nil) when the list is empty. -/
def Back (c : LRUCache K V σ) : Option Nat := c.itemList.getLast?

/-- Go `l.Len()`. -/
def Len (c : LRUCache K V σ) : Nat := c.itemList.length

/-- Dereference `item.Value.(*entry)`. -/
def deref (c : LRUCache K V σ) (item : Nat) : Option (entry K V) := c.heap[item]?

/-- Go `delete(m, k)`. -/
def mapDelete [DecidableEq K] (m : K → Option Nat) (k : K) : K → Option Nat :=
  fun x => if x = k then none else m x

/-- Go `m[k] = e`. -/
def mapStore [DecidableEq K] (m : K → Option Nat) (k : K) (e : Nat) : K → Option Nat :=
  fun x => if x = k then some e else m x

/-! ### The cache operations -/

variable [DecidableEq K]

/-- Method `Add`: adds an item into the cache. -/
def Add (c : LRUCache K V σ) (key : K) (val : V) : Option (LRUCache K V σ) :=
  match c.itemCache key with
  | some item =>
    -- Just make it latest and update value if it is existed
    let c1 := MoveToFront c item
    match deref c1 item with
    | none => none
    | some e => some { c1 with heap := c1.heap.set item { e with val := val } }
  | none =>
    -- Add it into cache and make it latest if it is not existed
    let (c1, item) := PushFront c { key := key, val := val }
    let c2 := { c1 with itemCache := mapStore c1.itemCache key item }
    -- Expel oldest item if over size
    if (Len c2 : Int) > c2.size then
      match Back c2 with
      | none => none
      | some expelItem =>
        let c3 := Remove c2 expelItem
        match deref c3 expelItem with
        | none => none
        | some e =>
          let c4 := { c3 with itemCache := mapDelete c3.itemCache e.key }
          match c4.expelCallback with
          | some f => some { c4 with world := f e.key e.val c4.world }
          | none => some c4
    else some c2

/-- Method `Get`: looks up a key; the result pairs the new state with the
returned `(val, hit)`, where `none` is the nil value. -/
def Get (c : LRUCache K V σ) (key : K) : Option (LRUCache K V σ × (Option V × Bool)) :=
  match c.itemCache key with
  | some item =>
    let c1 := MoveToFront c item
    match deref c1 item with
    | none => none
    | some e => some (c1, (some e.val, true))
  | none => some (c, (none, false))

/-- Method `Del`: removes the provided key from the cache. -/
def Del (c : LRUCache K V σ) (key : K) : Option (LRUCache K V σ) :=
  match c.itemCache key with
  | some item =>
    let c1 := Remove c item
    match deref c1 item with
    | none => none
    | some e => some { c1 with itemCache := mapDelete c1.itemCache e.key }
  | none => some c

/-! ### Views of the state -/

/-- The effect of the callback (if any) on the environment. -/
def fire (cb : Option (K → V → σ → σ)) (x : entry K V) (w : σ) : σ :=
  match cb with
  | some f => f x.key x.val w
  | none => w

/-- The entries of the recency list, front to back. -/
def entries (c : LRUCache K V σ) : List (entry K V) := c.itemList.filterMap (deref c)

/-- The key of the entry behind element `e`, `e.Value.(*entry).key`. -/
def keyAt (c : LRUCache K V σ) (e : Nat) : Option K := (deref c e).map entry.key

/-- The keys of the recency list, front to back. -/
def keys (c : LRUCache K V σ) : List K := (entries c).map entry.key

/-- Consistency of index and recency list: every linked element is allocated,
no element is linked twice, and the index maps `k` to `e` exactly when `e` is a
linked element whose entry has key `k`. -/
structure Inv (c : LRUCache K V σ) : Prop where
  valid : ∀ e ∈ c.itemList, e < c.heap.length
  nodup : c.itemList.Nodup
  index : ∀ k e, c.itemCache k = some e ↔ (e ∈ c.itemList ∧ keyAt c e = some k)

/-! ### Call sequences -/

/-- One call of the public interface. -/
inductive Op (K V : Type) where
  | add (key : K) (val : V)
  | get (key : K)
  | del (key : K)
deriving DecidableEq

/-- Executes one call, dropping the value returned by `Get`. -/
def step (c : LRUCache K V σ) : Op K V → Option (LRUCache K V σ)
  | .add k v => Add c k v
  | .get k => (Get c k).map Prod.fst
  | .del k => Del c k

/-- Executes a sequence of calls one after another. -/
def run (c : LRUCache K V σ) : List (Op K V) → Option (LRUCache K V σ)
  | [] => some c
  | op :: ops => (step c op).bind (fun c1 => run c1 ops)

/-- The options a caller can build: `WithCacheSize n` and `WithExpelCallback f`. -/
def IsOption (o : option K V σ) : Prop :=
  (∃ n, o = WithCacheSize n) ∨ (∃ f, o = WithExpelCallback f)

/-! ### Call histories -/

/-- Executes one call and reports whether it was a `Get` that found its key. -/
def stepHit (c : LRUCache K V σ) : Op K V → Option (LRUCache K V σ × Bool)
  | .add k v => (Add c k v).map (fun d => (d, false))
  | .get k => (Get c k).map (fun r => (r.1, r.2.2))
  | .del k => (Del c k).map (fun d => (d, false))

/-- Executes a sequence of calls, appending to `hist` each call made together
with its hit flag, in the order of the calls. -/
def runFrom (c : LRUCache K V σ) (hist : List (Op K V × Bool)) :
    List (Op K V) → Option (LRUCache K V σ × List (Op K V × Bool))
  | [] => some (c, hist)
  | op :: ops =>
    match stepHit c op with
    | none => none
    | some (c1, hit) => runFrom c1 (hist ++ [(op, hit)]) ops

/-- Executes a sequence of calls and returns the final state with the history. -/
def runHist (c : LRUCache K V σ) (ops : List (Op K V)) :
    Option (LRUCache K V σ × List (Op K V × Bool)) :=
  runFrom c [] ops

/-- Whether a call of the history is an `Add` of `k` or a successful `Get` of `k`. -/
def touched (k : K) : Op K V × Bool → Bool
  | (.add k1 _, _) => decide (k1 = k)
  | (.get k1, hit) => decide (k1 = k) && hit
  | (.del _, _) => false

/-- On a history read backwards (latest call first): the position in the call
sequence, counted from 1, of the latest `Add` or successful `Get` of `k`; 0 when
there is none. -/
def lastUseRev (k : K) : List (Op K V × Bool) → Nat
  | [] => 0
  | ev :: older => if touched k ev then older.length + 1 else lastUseRev k older

/-- The position in the call sequence `hist`, counted from 1, of the most recent
`Add` or successful `Get` of `k`; 0 when there is none. -/
def lastUse (k : K) (hist : List (Op K V × Bool)) : Nat := lastUseRev k hist.reverse

/-- The keys are listed in strictly decreasing order of their last use, and
every listed key has been used. -/
def Recent (hist : List (Op K V × Bool)) (l : List K) : Prop :=
  l.Pairwise (fun a b => lastUse b hist < lastUse a hist) ∧ ∀ a ∈ l, 0 < lastUse a hist

/-! ### Instrumented operations -/

/-- Method `Add` up to the point where the callback is about to be invoked
(source lines 61 to 80): the state at that point, and the entry expelled by the
capacity check, if any. -/
def AddTrace (c : LRUCache K V σ) (key : K) (val : V) :
    Option (LRUCache K V σ × Option (entry K V)) :=
  match c.itemCache key with
  | some item =>
    let c1 := MoveToFront c item
    match deref c1 item with
    | none => none
    | some e => some ({ c1 with heap := c1.heap.set item { e with val := val } }, none)
  | none =>
    let (c1, item) := PushFront c { key := key, val := val }
    let c2 := { c1 with itemCache := mapStore c1.itemCache key item }
    if (Len c2 : Int) > c2.size then
      match Back c2 with
      | none => none
      | some expelItem =>
        let c3 := Remove c2 expelItem
        match deref c3 expelItem with
        | none => none
        | some e => some ({ c3 with itemCache := mapDelete c3.itemCache e.key }, some e)
    else some (c2, none)

/-- The end of method `Add` (source lines 82 to 84): the callback, when it is
not nil, is invoked with the key and the value of the expelled entry. -/
def invoke (p : LRUCache K V σ × Option (entry K V)) : LRUCache K V σ :=
  match p.2 with
  | some x => { p.1 with world := fire p.1.expelCallback x p.1.world }
  | none => p.1

/-- First phase of method `Get` (under the read lock): the index lookup. -/
def GetLookup (c : LRUCache K V σ) (key : K) : Option Nat := c.itemCache key

/-- Second phase of method `Get` (under the write lock), entered when the lookup
found `item`: move it to the front and return its value with `true`. -/
def GetPromote (c : LRUCache K V σ) (item : Nat) :
    Option (LRUCache K V σ × (Option V × Bool)) :=
  let c1 := MoveToFront c item
  match deref c1 item with
  | none => none
  | some e => some (c1, (some e.val, true))

/-- What a caller or the callback observes of one call. -/
inductive Obs (K V : Type) where
  | added (expelled : Option (K × V))
  | got (val : Option V) (hit : Bool)
  | deleted
deriving DecidableEq

/-- Executes one call and reports what was observed: for `Add` the arguments
handed to the callback site, for `Get` the returned pair. -/
def stepObs (c : LRUCache K V σ) : Op K V → Option (LRUCache K V σ × Obs K V)
  | .add k v => (AddTrace c k v).map
      (fun p => (invoke p, Obs.added (p.2.map (fun x => (x.key, x.val)))))
  | .get k => (Get c k).map (fun r => (r.1, Obs.got r.2.1 r.2.2))
  | .del k => (Del c k).map (fun d => (d, Obs.deleted))

/-- Executes a sequence of calls and collects the observations in order. -/
def runObs (c : LRUCache K V σ) : List (Op K V) → Option (LRUCache K V σ × List (Obs K V))
  | [] => some (c, [])
  | op :: ops =>
    match stepObs c op with
    | none => none
    | some (c1, o) =>
      match runObs c1 ops with
      | none => none
      | some (d, os) => some (d, o :: os)

/-- The pairs expelled along a list of observations, in order. -/
def expelledOf : List (Obs K V) → List (K × V)
  | [] => []
  | Obs.added (some p) :: os => p :: expelledOf os
  | _ :: os => expelledOf os

/-- The environment after the callback (if any) was invoked on each pair in turn. -/
def fireAll (cb : Option (K → V → σ → σ)) (ps : List (K × V)) (w : σ) : σ :=
  ps.foldl (fun w p => fire cb { key := p.1, val := p.2 } w) w

/-- The calls `Add(k, v)` for the pairs of a list, in order. -/
def addOps (kvs : List (K × V)) : List (Op K V) := kvs.map (fun p => Op.add p.1 p.2)

/-- The entry made of a key and a value. -/
def entryOf (p : K × V) : entry K V := { key := p.1, val := p.2 }

/-! ### Interleavings -/

/-- One atomic step of some thread: a whole `Add`, a whole `Del`, the lookup
phase of a `Get` by thread `thread`, or the promote phase of the `Get` that
thread `thread` has begun. -/
inductive Event (K V : Type) where
  | add (key : K) (val : V)
  | del (key : K)
  | lookup (thread : Nat) (key : K)
  | promote (thread : Nat)

/-- The cache together with, for each thread that is between the two phases of
a `Get` whose lookup succeeded, the element it found. -/
structure Sys (K V σ : Type) where
  cache : LRUCache K V σ
  pending : Nat → Option Nat

/-- Executes one atomic step.  A lookup that misses ends the `Get` at once; a
promote step of a thread with no `Get` in progress does nothing. -/
def sysStep (s : Sys K V σ) : Event K V → Option (Sys K V σ)
  | .add k v => (Add s.cache k v).map (fun d => { s with cache := d })
  | .del k => (Del s.cache k).map (fun d => { s with cache := d })
  | .lookup t k =>
    some { s with pending := fun u => if u = t then GetLookup s.cache k else s.pending u }
  | .promote t =>
    match s.pending t with
    | none => some s
    | some item =>
      (GetPromote s.cache item).map
        (fun r => { cache := r.1, pending := fun u => if u = t then none else s.pending u })

/-- Executes an interleaving, one atomic step after another. -/
def sysRun (s : Sys K V σ) : List (Event K V) → Option (Sys K V σ)
  | [] => some s
  | ev :: evs => (sysStep s ev).bind (fun s1 => sysRun s1 evs)

/-- Consistency of the cache, and every element found by a `Get` in progress is
allocated. -/
def SysInv (s : Sys K V σ) : Prop :=
  Inv s.cache ∧ ∀ t item, s.pending t = some item → item < s.cache.heap.length

/-- What a call is expected to show on a cache that retains nothing: an `Add`
expels the very pair it inserts, a `Get` misses. -/
def vanishObs : Op K V → Obs K V
  | .add k v => Obs.added (some (k, v))
  | .get _ => Obs.got none false
  | .del _ => Obs.deleted

/-! ### Reference model: a plain recency list -/

/-- Model `Add`: remove `k` if present, put `(k, v)` in front, then drop the
last pair if the length exceeds the capacity; the result is the new list and the
pair dropped, if any. -/
def modelAdd (cap : Int) (l : List (K × V)) (k : K) (v : V) :
    List (K × V) × Option (K × V) :=
  let l1 := (k, v) :: l.filter (fun p => decide (p.1 ≠ k))
  if cap < (l1.length : Int) then (l1.dropLast, l1.getLast?) else (l1, none)

/-- Model `Get`: linear lookup of `k`; on a hit the pair is moved to the head. -/
def modelGet (l : List (K × V)) (k : K) : List (K × V) × (Option V × Bool) :=
  match l.find? (fun p => decide (p.1 = k)) with
  | some p => (p :: l.filter (fun q => decide (q.1 ≠ k)), (some p.2, true))
  | none => (l, (none, false))

/-- Model `Del`: filter out `k`. -/
def modelDel (l : List (K × V)) (k : K) : List (K × V) :=
  l.filter (fun p => decide (p.1 ≠ k))

/-- One call on the model, with what it shows. -/
def modelStep (cap : Int) (l : List (K × V)) : Op K V → List (K × V) × Obs K V
  | .add k v => ((modelAdd cap l k v).1, Obs.added (modelAdd cap l k v).2)
  | .get k => ((modelGet l k).1, Obs.got (modelGet l k).2.1 (modelGet l k).2.2)
  | .del k => (modelDel l k, Obs.deleted)

/-- A sequence of calls on the model, with the observations in order. -/
def modelRun (cap : Int) (l : List (K × V)) : List (Op K V) → List (K × V) × List (Obs K V)
  | [] => (l, [])
  | op :: ops =>
    ((modelRun cap (modelStep cap l op).1 ops).1,
     (modelStep cap l op).2 :: (modelRun cap (modelStep cap l op).1 ops).2)

/-- The pair of an entry. -/
def pairOf (x : entry K V) : K × V := (x.key, x.val)

/-- The recency list of the implementation read front to back, as pairs. -/
def pairs (c : LRUCache K V σ) : List (K × V) := (entries c).map pairOf

end ops

/-- A callback that records its arguments in the environment. -/
def recordCall (k : Nat) (v : Nat) (log : List (Nat × Nat)) : List (Nat × Nat) :=
  log ++ [(k, v)]

/-- The state reached from `NewLRU(WithCacheSize(2), WithExpelCallback(recordCall))`
by `Add(1, 10)`, `Add(2, 20)`: a full cache, key 2 most recent. -/
def sample : LRUCache Nat Nat (List (Nat × Nat)) where
  size := 2
  itemList := [1, 0]
  itemCache := fun k => if k = 2 then some 1 else if k = 1 then some 0 else none
  expelCallback := some recordCall
  heap := [{ key := 1, val := 10 }, { key := 2, val := 20 }]
  world := []

/-- The cache of the scenario: `NewLRU(WithCacheSize(2))`, no callback. -/
def scenarioCache : LRUCache String Nat Unit := NewLRU () [WithCacheSize 2]

/-- The calls of the scenario. -/
def scenarioOps : List (Op String Nat) :=
  [Op.add "a" 1, Op.add "b" 2, Op.add "c" 3, Op.get "b", Op.add "d" 4, Op.del "b", Op.get "b"]

/-- The entries held and the observations made after the first `n` calls of the
scenario. -/
def scenarioAfter (n : Nat) : Option (List (entry String Nat) × List (Obs String Nat)) :=
  (runObs scenarioCache (scenarioOps.take n)).map (fun p => (entries p.1, p.2))

/-- A cache of capacity 0 with the recording callback:
`NewLRU(WithCacheSize(0), WithExpelCallback(recordCall))`. -/
def zeroCache : LRUCache Nat Nat (List (Nat × Nat)) :=
  NewLRU [] [WithCacheSize 0, WithExpelCallback (some recordCall)]

/-! ## Auxiliary facts on lists -/

theorem erase_getLast_of_nodup {l : List Nat} {x : Nat} (hn : l.Nodup)
    (hx : l.getLast? = some x) : l.erase x = l.dropLast := by
  have h := List.dropLast_append_getLast? x hx
  have hn2 : (l.dropLast ++ [x]).Nodup := by rw [h]; exact hn
  have hx2 : x ∉ l.dropLast := by
    intro hmem
    exact (List.nodup_append.1 hn2).2.2 hmem (by simp)
  calc l.erase x = (l.dropLast ++ [x]).erase x := by rw [h]
    _ = l.dropLast ++ [x].erase x := List.erase_append_right _ hx2
    _ = l.dropLast := by simp

theorem filterMap_filter_comm {α β : Type} (f : α → Option β) (p : α → Bool) (q : β → Bool)
    (l : List α) (h : ∀ a ∈ l, ∀ b, f a = some b → p a = q b) :
    (l.filter p).filterMap f = (l.filterMap f).filter q := by
  induction l with
  | nil => simp
  | cons a t ih =>
    have iht := ih (fun a ha b hb => h a (List.mem_cons_of_mem _ ha) b hb)
    cases hfa : f a with
    | none =>
      by_cases hp : p a = true
      · simp [List.filter_cons, hp, List.filterMap_cons, hfa, iht]
      · simp [List.filter_cons, hp, List.filterMap_cons, hfa, iht]
    | some b =>
      have hpq := h a (List.mem_cons_self _ _) b hfa
      by_cases hp : p a = true
      · have hq : q b = true := by rw [← hpq]; exact hp
        simp [List.filter_cons, hp, hq, List.filterMap_cons, hfa, iht]
      · have hq : ¬ q b = true := by rw [← hpq]; exact hp
        simp [List.filter_cons, hp, hq, List.filterMap_cons, hfa, iht]

theorem filterMap_dropLast_of_isSome {α β : Type} (f : α → Option β) (l : List α)
    (h : ∀ a ∈ l, (f a).isSome) : (l.dropLast).filterMap f = (l.filterMap f).dropLast := by
  induction l with
  | nil => simp
  | cons a t ih =>
    have iht := ih (fun a ha => h a (List.mem_cons_of_mem _ ha))
    cases t with
    | nil =>
      cases hfa : f a <;> simp [hfa]
    | cons b u =>
      obtain ⟨x, hx⟩ := Option.isSome_iff_exists.1 (h a (List.mem_cons_self _ _))
      obtain ⟨y, hy⟩ := Option.isSome_iff_exists.1
        (h b (List.mem_cons_of_mem _ (List.mem_cons_self _ _)))
      rw [List.dropLast_cons₂, List.filterMap_cons_some hx, iht,
        List.filterMap_cons_some hx, List.filterMap_cons_some hy, List.dropLast_cons₂]

theorem getLast?_filterMap_of_isSome {α β : Type} (f : α → Option β) (l : List α)
    (h : ∀ a ∈ l, (f a).isSome) : (l.filterMap f).getLast? = l.getLast?.bind f := by
  induction l with
  | nil => simp
  | cons a t ih =>
    have iht := ih (fun a ha => h a (List.mem_cons_of_mem _ ha))
    obtain ⟨x, hx⟩ := Option.isSome_iff_exists.1 (h a (List.mem_cons_self _ _))
    cases t with
    | nil => simp [hx]
    | cons b u =>
      obtain ⟨y, hy⟩ := Option.isSome_iff_exists.1
        (h b (List.mem_cons_of_mem _ (List.mem_cons_self _ _)))
      rw [List.filterMap_cons_some hx, List.getLast?_cons_cons, ← iht,
        List.filterMap_cons_some hy, List.getLast?_cons_cons]

section facts
variable {K V σ : Type}

/-! ## The list primitives -/

theorem MoveToFront_itemList (c : LRUCache K V σ) (e : Nat) (he : e ∈ c.itemList) :
    (MoveToFront c e).itemList = e :: c.itemList.erase e := by
  unfold MoveToFront
  split
  · rename_i h
    rcases h with h | h
    · exact absurd he h
    · cases hl : c.itemList with
      | nil => rw [hl] at h; simp at h
      | cons a t =>
        rw [hl] at h
        simp only [List.head?_cons, Option.some.injEq] at h
        subst h
        simp
  · rfl

theorem MoveToFront_eq (c : LRUCache K V σ) (e : Nat) (he : e ∈ c.itemList) :
    MoveToFront c e = { c with itemList := e :: c.itemList.erase e } := by
  have h := MoveToFront_itemList c e he
  unfold MoveToFront at h ⊢
  split
  · rename_i hc
    rw [if_pos hc] at h
    cases c
    simp only at h ⊢
    rw [← h]
  · rfl

theorem MoveToFront_of_not_mem (c : LRUCache K V σ) (e : Nat) (he : e ∉ c.itemList) :
    MoveToFront c e = c := by
  unfold MoveToFront
  rw [if_pos (Or.inl he)]

theorem Remove_eq (c : LRUCache K V σ) (e : Nat) :
    Remove c e = { c with itemList := c.itemList.erase e } := by
  unfold Remove
  split
  · rfl
  · rename_i h
    rw [List.erase_of_not_mem h]

/-! ## Closed forms of the operations -/

variable [DecidableEq K]

theorem Add_present (c : LRUCache K V σ) (k : K) (v : V) (e : Nat) (x : entry K V)
    (hk : c.itemCache k = some e) (he : e ∈ c.itemList) (hx : deref c e = some x) :
    Add c k v = some { c with itemList := e :: c.itemList.erase e,
                              heap := c.heap.set e { x with val := v } } := by
  unfold Add
  rw [hk]
  simp only [MoveToFront_eq c e he]
  have hx2 : deref { c with itemList := e :: c.itemList.erase e } e = some x := hx
  rw [hx2]

theorem Add_absent_fit (c : LRUCache K V σ) (k : K) (v : V)
    (hk : c.itemCache k = none) (hfit : ((c.itemList.length + 1 : Nat) : Int) ≤ c.size) :
    Add c k v = some { c with heap := c.heap ++ [{ key := k, val := v }],
                              itemList := c.heap.length :: c.itemList,
                              itemCache := mapStore c.itemCache k c.heap.length } := by
  unfold Add
  rw [hk]
  simp only [PushFront, Len, List.length_cons]
  rw [if_neg (not_lt.2 hfit)]

theorem Add_absent_over (c : LRUCache K V σ) (k : K) (v : V) (last : Nat) (x : entry K V)
    (hk : c.itemCache k = none) (hover : c.size < ((c.itemList.length + 1 : Nat) : Int))
    (hn : (c.heap.length :: c.itemList).Nodup)
    (hlast : (c.heap.length :: c.itemList).getLast? = some last)
    (hx : (c.heap ++ [{ key := k, val := v }])[last]? = some x) :
    Add c k v = some { c with heap := c.heap ++ [{ key := k, val := v }],
                              itemList := (c.heap.length :: c.itemList).dropLast,
                              itemCache := mapDelete (mapStore c.itemCache k c.heap.length) x.key,
                              world := fire c.expelCallback x c.world } := by
  unfold Add
  rw [hk]
  simp only [PushFront, Len, List.length_cons]
  rw [if_pos hover]
  simp only [Back, hlast, Remove_eq, deref, hx, erase_getLast_of_nodup hn hlast]
  cases hcb : c.expelCallback <;> simp [fire, hcb]

theorem Get_present (c : LRUCache K V σ) (k : K) (e : Nat) (x : entry K V)
    (hk : c.itemCache k = some e) (he : e ∈ c.itemList) (hx : deref c e = some x) :
    Get c k = some ({ c with itemList := e :: c.itemList.erase e }, (some x.val, true)) := by
  unfold Get
  rw [hk]
  simp only [MoveToFront_eq c e he]
  have hx2 : deref { c with itemList := e :: c.itemList.erase e } e = some x := hx
  rw [hx2]

theorem Get_absent (c : LRUCache K V σ) (k : K) (hk : c.itemCache k = none) :
    Get c k = some (c, (none, false)) := by
  unfold Get
  rw [hk]

theorem Del_present (c : LRUCache K V σ) (k : K) (e : Nat) (x : entry K V)
    (hk : c.itemCache k = some e) (hx : deref c e = some x) :
    Del c k = some { c with itemList := c.itemList.erase e,
                            itemCache := mapDelete c.itemCache x.key } := by
  unfold Del
  rw [hk]
  simp only [Remove_eq]
  have hx2 : deref { c with itemList := c.itemList.erase e } e = some x := hx
  rw [hx2]

theorem Del_absent (c : LRUCache K V σ) (k : K) (hk : c.itemCache k = none) :
    Del c k = some c := by
  unfold Del
  rw [hk]

/-! ## Preservation of consistency by the elementary updates -/

theorem inv_init (size : Int) (cb : Option (K → V → σ → σ)) (w : σ) :
    Inv ({ size := size, itemList := [], itemCache := fun _ => none,
           expelCallback := cb, heap := [], world := w } : LRUCache K V σ) where
  valid := by simp
  nodup := by simp
  index := by simp

theorem inv_frame {c d : LRUCache K V σ} (h : Inv c) (hl : d.itemList = c.itemList)
    (hm : d.itemCache = c.itemCache) (hh : d.heap = c.heap) : Inv d where
  valid := by rw [hl, hh]; exact h.valid
  nodup := by rw [hl]; exact h.nodup
  index := by
    intro k e
    simp only [keyAt, deref, hl, hm, hh]
    exact h.index k e

theorem inv_moveFront {c : LRUCache K V σ} (h : Inv c) (e : Nat) (he : e ∈ c.itemList) :
    Inv { c with itemList := e :: c.itemList.erase e } where
  valid := by
    intro a ha
    rcases List.mem_cons.1 ha with rfl | ha
    · exact h.valid _ he
    · exact h.valid _ (List.mem_of_mem_erase ha)
  nodup := List.nodup_cons.2 ⟨h.nodup.not_mem_erase, h.nodup.erase e⟩
  index := by
    intro k a
    have hmem : a ∈ e :: c.itemList.erase e ↔ a ∈ c.itemList := by
      constructor
      · intro ha
        rcases List.mem_cons.1 ha with rfl | ha
        · exact he
        · exact List.mem_of_mem_erase ha
      · intro ha
        by_cases hae : a = e
        · subst hae; exact List.mem_cons_self _ _
        · exact List.mem_cons_of_mem _ ((List.mem_erase_of_ne hae).2 ha)
    show c.itemCache k = some a ↔ (a ∈ e :: c.itemList.erase e ∧ keyAt c a = some k)
    rw [hmem]
    exact h.index k a

theorem keyAt_setVal (c : LRUCache K V σ) (e : Nat) (x : entry K V) (v : V)
    (hx : deref c e = some x) (a : Nat) :
    keyAt { c with heap := c.heap.set e { x with val := v } } a = keyAt c a := by
  simp only [keyAt, deref] at hx ⊢
  by_cases hae : e = a
  · subst hae
    have hlt : e < c.heap.length := by
      by_contra hcon
      rw [List.getElem?_eq_none (not_lt.1 hcon)] at hx
      cases hx
    rw [List.getElem?_set_self hlt, hx]
    rfl
  · rw [List.getElem?_set_ne hae]

theorem inv_setVal {c : LRUCache K V σ} (h : Inv c) (e : Nat) (x : entry K V) (v : V)
    (hx : deref c e = some x) :
    Inv { c with heap := c.heap.set e { x with val := v } } where
  valid := by
    intro a ha
    simp only [List.length_set]
    exact h.valid a ha
  nodup := h.nodup
  index := by
    intro k a
    rw [keyAt_setVal c e x v hx a]
    exact h.index k a

theorem keyAt_push_old (c : LRUCache K V σ) (y : entry K V) (a : Nat)
    (ha : a < c.heap.length) (l : List Nat) (m : K → Option Nat) :
    keyAt { c with heap := c.heap ++ [y], itemList := l, itemCache := m } a = keyAt c a := by
  simp only [keyAt, deref]
  rw [List.getElem?_append_left ha]

theorem keyAt_push_new (c : LRUCache K V σ) (y : entry K V) (l : List Nat)
    (m : K → Option Nat) :
    keyAt { c with heap := c.heap ++ [y], itemList := l, itemCache := m } c.heap.length
      = some y.key := by
  simp [keyAt, deref]

theorem inv_push {c : LRUCache K V σ} (h : Inv c) (k : K) (v : V)
    (hk : c.itemCache k = none) :
    Inv { c with heap := c.heap ++ [{ key := k, val := v }],
                 itemList := c.heap.length :: c.itemList,
                 itemCache := mapStore c.itemCache k c.heap.length } where
  valid := by
    intro a ha
    simp only [List.length_append, List.length_singleton]
    rcases List.mem_cons.1 ha with rfl | ha
    · omega
    · have := h.valid a ha
      omega
  nodup := by
    refine List.nodup_cons.2 ⟨?_, h.nodup⟩
    intro hmem
    exact lt_irrefl _ (h.valid _ hmem)
  index := by
    intro k1 a
    show mapStore c.itemCache k c.heap.length k1 = some a ↔
      (a ∈ c.heap.length :: c.itemList ∧ keyAt _ a = some k1)
    constructor
    · intro hs
      unfold mapStore at hs
      split at hs
      · rename_i hkk
        subst hkk
        cases hs
        exact ⟨List.mem_cons_self _ _, keyAt_push_new c _ _ _⟩
      · obtain ⟨ha, hka⟩ := (h.index k1 a).1 hs
        refine ⟨List.mem_cons_of_mem _ ha, ?_⟩
        rw [keyAt_push_old c _ a (h.valid a ha)]
        exact hka
    · rintro ⟨ha, hka⟩
      rcases List.mem_cons.1 ha with rfl | ha
      · rw [keyAt_push_new] at hka
        cases hka
        simp [mapStore]
      · rw [keyAt_push_old c _ a (h.valid a ha)] at hka
        have hc := (h.index k1 a).2 ⟨ha, hka⟩
        have hne : k1 ≠ k := by
          rintro rfl
          rw [hk] at hc
          cases hc
        simp only [mapStore, if_neg hne]
        exact hc

theorem inv_remove {c : LRUCache K V σ} (h : Inv c) (e : Nat) (x : entry K V)
    (he : e ∈ c.itemList) (hx : deref c e = some x) :
    Inv { c with itemList := c.itemList.erase e,
                 itemCache := mapDelete c.itemCache x.key } where
  valid := fun a ha => h.valid a (List.mem_of_mem_erase ha)
  nodup := h.nodup.erase e
  index := by
    have hke : keyAt c e = some x.key := by simp [keyAt, hx]
    have hce : c.itemCache x.key = some e := (h.index _ _).2 ⟨he, hke⟩
    intro k1 a
    show mapDelete c.itemCache x.key k1 = some a ↔
      (a ∈ c.itemList.erase e ∧ keyAt c a = some k1)
    rw [h.nodup.mem_erase_iff]
    constructor
    · intro hs
      unfold mapDelete at hs
      split at hs
      · cases hs
      · rename_i hne
        obtain ⟨ha, hka⟩ := (h.index k1 a).1 hs
        refine ⟨⟨?_, ha⟩, hka⟩
        rintro rfl
        rw [hke] at hka
        exact hne (Option.some.inj hka).symm
    · rintro ⟨⟨hae, ha⟩, hka⟩
      have hc := (h.index k1 a).2 ⟨ha, hka⟩
      have hne : k1 ≠ x.key := by
        rintro rfl
        rw [hce] at hc
        exact hae (Option.some.inj hc).symm
      simp only [mapDelete, if_neg hne]
      exact hc

/-! ## Every operation returns and preserves consistency -/

theorem Inv.lookup {c : LRUCache K V σ} (h : Inv c) {k : K} {e : Nat}
    (hk : c.itemCache k = some e) :
    e ∈ c.itemList ∧ ∃ x, deref c e = some x ∧ x.key = k := by
  obtain ⟨he, hka⟩ := (h.index k e).1 hk
  refine ⟨he, ?_⟩
  unfold keyAt at hka
  cases hd : deref c e with
  | none => rw [hd] at hka; cases hka
  | some x =>
    rw [hd] at hka
    exact ⟨x, rfl, Option.some.inj hka⟩

theorem Inv.push_nodup {c : LRUCache K V σ} (h : Inv c) :
    (c.heap.length :: c.itemList).Nodup :=
  List.nodup_cons.2 ⟨fun hmem => lt_irrefl _ (h.valid _ hmem), h.nodup⟩

theorem Inv.back_exists {c : LRUCache K V σ} (h : Inv c) (y : entry K V) :
    ∃ last x, (c.heap.length :: c.itemList).getLast? = some last ∧
      last ∈ c.heap.length :: c.itemList ∧ (c.heap ++ [y])[last]? = some x := by
  have hne : c.heap.length :: c.itemList ≠ [] := by simp
  have hmem := List.getLast_mem hne
  have hlt : (c.heap.length :: c.itemList).getLast hne < (c.heap ++ [y]).length := by
    simp only [List.length_append, List.length_singleton]
    rcases List.mem_cons.1 hmem with heq | hin
    · omega
    · have := h.valid _ hin
      omega
  exact ⟨_, (c.heap ++ [y])[(c.heap.length :: c.itemList).getLast hne],
    List.getLast?_eq_getLast _ hne, hmem, List.getElem?_eq_getElem hlt⟩

theorem Add_total {c : LRUCache K V σ} (h : Inv c) (k : K) (v : V) :
    ∃ d, Add c k v = some d ∧ Inv d ∧ d.size = c.size ∧
      d.expelCallback = c.expelCallback ∧
      ((Len c : Int) ≤ c.size → (Len d : Int) ≤ d.size) := by
  cases hk : c.itemCache k with
  | some e =>
    obtain ⟨he, x, hx, -⟩ := h.lookup hk
    refine ⟨_, Add_present c k v e x hk he hx, ?_, rfl, rfl, ?_⟩
    · exact inv_setVal (inv_moveFront h e he) e x v hx
    · intro hle
      have hlen : (e :: c.itemList.erase e).length = c.itemList.length := by
        rw [List.length_cons, List.length_erase_of_mem he]
        have := List.length_pos_of_mem he
        omega
      simp only [Len, hlen]
      exact hle
  | none =>
    by_cases hfit : ((c.itemList.length + 1 : Nat) : Int) ≤ c.size
    · refine ⟨_, Add_absent_fit c k v hk hfit, inv_push h k v hk, rfl, rfl, ?_⟩
      intro _
      simpa [Len] using hfit
    · obtain ⟨last, x, hlast, hmem, hx⟩ := h.back_exists { key := k, val := v }
      refine ⟨_, Add_absent_over c k v last x hk (not_le.1 hfit) h.push_nodup hlast hx,
        ?_, rfl, rfl, ?_⟩
      · have h3 := inv_remove (inv_push h k v hk) last x hmem hx
        refine inv_frame h3 ?_ rfl rfl
        exact (erase_getLast_of_nodup h.push_nodup hlast).symm
      · intro hle
        simpa [Len] using hle

theorem Get_total {c : LRUCache K V σ} (h : Inv c) (k : K) :
    ∃ d r, Get c k = some (d, r) ∧ Inv d ∧ d.size = c.size ∧
      d.expelCallback = c.expelCallback ∧ d.world = c.world ∧
      ((Len c : Int) ≤ c.size → (Len d : Int) ≤ d.size) := by
  cases hk : c.itemCache k with
  | some e =>
    obtain ⟨he, x, hx, -⟩ := h.lookup hk
    refine ⟨_, _, Get_present c k e x hk he hx, inv_moveFront h e he, rfl, rfl, rfl, ?_⟩
    intro hle
    have hlen : (e :: c.itemList.erase e).length = c.itemList.length := by
      rw [List.length_cons, List.length_erase_of_mem he]
      have := List.length_pos_of_mem he
      omega
    simp only [Len, hlen]
    exact hle
  | none => exact ⟨_, _, Get_absent c k hk, h, rfl, rfl, rfl, id⟩

theorem Del_total {c : LRUCache K V σ} (h : Inv c) (k : K) :
    ∃ d, Del c k = some d ∧ Inv d ∧ d.size = c.size ∧
      d.expelCallback = c.expelCallback ∧ d.world = c.world ∧
      ((Len c : Int) ≤ c.size → (Len d : Int) ≤ d.size) := by
  cases hk : c.itemCache k with
  | some e =>
    obtain ⟨he, x, hx, -⟩ := h.lookup hk
    refine ⟨_, Del_present c k e x hk hx, inv_remove h e x he hx, rfl, rfl, rfl, ?_⟩
    intro hle
    have hlen : (c.itemList.erase e).length ≤ c.itemList.length := by
      rw [List.length_erase_of_mem he]
      omega
    simp only [Len] at hle ⊢
    omega
  | none => exact ⟨_, Del_absent c k hk, h, rfl, rfl, rfl, id⟩

/-! ## Construction and call sequences -/

theorem foldl_options (opts : List (option K V σ)) (hopts : ∀ o ∈ opts, IsOption o)
    (c : LRUCache K V σ) :
    ∃ n cb, opts.foldl (fun c opt => opt c) c =
      { c with size := n, expelCallback := cb } := by
  induction opts generalizing c with
  | nil => exact ⟨c.size, c.expelCallback, rfl⟩
  | cons o t ih =>
    obtain ⟨n, cb, h⟩ := ih (fun o ho => hopts o (List.mem_cons_of_mem _ ho)) (o c)
    rw [List.foldl_cons, h]
    rcases hopts o (List.mem_cons_self _ _) with ⟨m, rfl⟩ | ⟨f, rfl⟩
    · exact ⟨n, cb, rfl⟩
    · exact ⟨n, cb, rfl⟩

theorem NewLRU_eq (w : σ) (opts : List (option K V σ)) (hopts : ∀ o ∈ opts, IsOption o) :
    ∃ n cb, NewLRU w opts =
      { size := n, itemList := [], itemCache := fun _ => none,
        expelCallback := cb, heap := [], world := w } := by
  obtain ⟨n, cb, h⟩ := foldl_options opts hopts
    { size := DefaultLRUCacheSize, itemList := [], itemCache := fun _ => none,
      expelCallback := none, heap := [], world := w }
  exact ⟨n, cb, h⟩

theorem NewLRU_inv (w : σ) (opts : List (option K V σ)) (hopts : ∀ o ∈ opts, IsOption o) :
    Inv (NewLRU w opts) := by
  obtain ⟨n, cb, h⟩ := NewLRU_eq w opts hopts
  rw [h]
  exact inv_init n cb w

theorem NewLRU_Len (w : σ) (opts : List (option K V σ)) (hopts : ∀ o ∈ opts, IsOption o) :
    Len (NewLRU w opts) = 0 := by
  obtain ⟨n, cb, h⟩ := NewLRU_eq w opts hopts
  rw [h]
  rfl

theorem step_total {c : LRUCache K V σ} (h : Inv c) (op : Op K V) :
    ∃ d, step c op = some d ∧ Inv d ∧ d.size = c.size ∧
      d.expelCallback = c.expelCallback ∧
      ((Len c : Int) ≤ c.size → (Len d : Int) ≤ d.size) := by
  cases op with
  | add k v => exact Add_total h k v
  | get k =>
    obtain ⟨d, r, hg, hi, hs, hc, -, hl⟩ := Get_total h k
    exact ⟨d, by simp [step, hg], hi, hs, hc, hl⟩
  | del k =>
    obtain ⟨d, hd, hi, hs, hc, -, hl⟩ := Del_total h k
    exact ⟨d, hd, hi, hs, hc, hl⟩

theorem run_total {c : LRUCache K V σ} (h : Inv c) (ops : List (Op K V)) :
    ∃ d, run c ops = some d ∧ Inv d ∧ d.size = c.size ∧
      d.expelCallback = c.expelCallback ∧
      ((Len c : Int) ≤ c.size → (Len d : Int) ≤ d.size) := by
  induction ops generalizing c with
  | nil => exact ⟨c, rfl, h, rfl, rfl, id⟩
  | cons op t ih =>
    obtain ⟨c1, h1, hi1, hs1, hc1, hl1⟩ := step_total h op
    obtain ⟨d, hd, hid, hsd, hcd, hld⟩ := ih hi1
    refine ⟨d, ?_, hid, hsd.trans hs1, hcd.trans hc1, fun hle => hld (hl1 hle)⟩
    simp [run, h1, hd]

/-! ## Keys of a consistent state -/

theorem nodup_filterMap_of_injOn {α β : Type} (f : α → Option β) (l : List α)
    (hn : l.Nodup)
    (hinj : ∀ a ∈ l, ∀ a1 ∈ l, ∀ b, f a = some b → f a1 = some b → a = a1) :
    (l.filterMap f).Nodup := by
  induction l with
  | nil => simp
  | cons a t ih =>
    have hnt := (List.nodup_cons.1 hn).2
    have hat := (List.nodup_cons.1 hn).1
    have iht := ih hnt (fun x hx y hy b hb1 hb2 =>
      hinj x (List.mem_cons_of_mem _ hx) y (List.mem_cons_of_mem _ hy) b hb1 hb2)
    cases hfa : f a with
    | none => rw [List.filterMap_cons_none hfa]; exact iht
    | some b =>
      rw [List.filterMap_cons_some hfa]
      refine List.nodup_cons.2 ⟨?_, iht⟩
      intro hb
      obtain ⟨y, hy, hfy⟩ := List.mem_filterMap.1 hb
      have := hinj a (List.mem_cons_self _ _) y (List.mem_cons_of_mem _ hy) b hfa hfy
      exact hat (this ▸ hy)

theorem keys_eq (c : LRUCache K V σ) : keys c = c.itemList.filterMap (keyAt c) := by
  unfold keys entries
  rw [List.map_filterMap]
  rfl

theorem mem_keys (c : LRUCache K V σ) (k : K) :
    k ∈ keys c ↔ ∃ e ∈ c.itemList, keyAt c e = some k := by
  rw [keys_eq, List.mem_filterMap]

theorem Inv.keys_nodup {c : LRUCache K V σ} (h : Inv c) : (keys c).Nodup := by
  rw [keys_eq]
  refine nodup_filterMap_of_injOn _ _ h.nodup ?_
  intro a ha a1 ha1 b hb hb1
  have h1 := (h.index b a).2 ⟨ha, hb⟩
  have h2 := (h.index b a1).2 ⟨ha1, hb1⟩
  rw [h1] at h2
  exact Option.some.inj h2

theorem Inv.mem_keys_iff {c : LRUCache K V σ} (h : Inv c) (k : K) :
    (c.itemCache k).isSome ↔ k ∈ keys c := by
  rw [mem_keys, Option.isSome_iff_exists]
  constructor
  · rintro ⟨e, he⟩
    exact ⟨e, (h.index k e).1 he⟩
  · rintro ⟨e, he⟩
    exact ⟨e, (h.index k e).2 he⟩

theorem Inv.not_mem_keys_iff {c : LRUCache K V σ} (h : Inv c) (k : K) :
    c.itemCache k = none ↔ k ∉ keys c := by
  rw [← h.mem_keys_iff, Option.not_isSome_iff_eq_none]

theorem Inv.linked {c : LRUCache K V σ} (h : Inv c) (e : Nat) (he : e ∈ c.itemList) :
    ∃ x, deref c e = some x ∧ c.itemCache x.key = some e := by
  have hlt := h.valid e he
  have hx : deref c e = some (c.heap[e]) := List.getElem?_eq_getElem hlt
  refine ⟨_, hx, (h.index _ _).2 ⟨he, ?_⟩⟩
  simp [keyAt, hx]

theorem Inv.entries_length {c : LRUCache K V σ} (h : Inv c) :
    (entries c).length = Len c := by
  unfold entries Len
  have : ∀ l : List Nat, (∀ e ∈ l, e < c.heap.length) →
      (l.filterMap (deref c)).length = l.length := by
    intro l
    induction l with
    | nil => intro _; rfl
    | cons a t ih =>
      intro hv
      have hlt : a < c.heap.length := hv a (List.mem_cons_self _ _)
      have ha : deref c a = some (c.heap[a]) := List.getElem?_eq_getElem hlt
      rw [List.filterMap_cons_some ha, List.length_cons, List.length_cons,
        ih (fun e he => hv e (List.mem_cons_of_mem _ he))]
  exact this _ h.valid

/-! ## The entries read through the recency list -/

theorem entries_congr (c d : LRUCache K V σ)
    (hd : ∀ e ∈ d.itemList, deref d e = deref c e) :
    entries d = d.itemList.filterMap (deref c) := by
  unfold entries
  exact List.filterMap_congr hd

theorem Inv.deref_isSome {c : LRUCache K V σ} (h : Inv c) :
    ∀ e ∈ c.itemList, (deref c e).isSome := by
  intro e he
  obtain ⟨x, hx, -⟩ := h.linked e he
  simp [hx]

theorem Inv.erase_entries {c : LRUCache K V σ} (h : Inv c) (e : Nat) (x : entry K V)
    (he : e ∈ c.itemList) (hx : deref c e = some x) :
    (c.itemList.erase e).filterMap (deref c) =
      (entries c).filter (fun y => decide (y.key ≠ x.key)) := by
  rw [h.nodup.erase_eq_filter]
  unfold entries
  apply filterMap_filter_comm
  intro a ha b hb
  have hka : keyAt c a = some b.key := by simp [keyAt, hb]
  have hke : keyAt c e = some x.key := by simp [keyAt, hx]
  by_cases hae : a = e
  · subst hae
    rw [hx] at hb
    cases hb
    simp
  · have hkne : b.key ≠ x.key := by
      intro hkk
      rw [hkk] at hka
      have h1 := (h.index x.key a).2 ⟨ha, hka⟩
      have h2 := (h.index x.key e).2 ⟨he, hke⟩
      rw [h1] at h2
      exact hae (Option.some.inj h2)
    simp [hae, hkne]

theorem Inv.mem_entries {c : LRUCache K V σ} (h : Inv c) (x : entry K V) :
    x ∈ entries c ↔ ∃ e, c.itemCache x.key = some e ∧ deref c e = some x := by
  unfold entries
  rw [List.mem_filterMap]
  constructor
  · rintro ⟨e, he, hx⟩
    exact ⟨e, (h.index _ _).2 ⟨he, by simp [keyAt, hx]⟩, hx⟩
  · rintro ⟨e, hk, hx⟩
    exact ⟨e, ((h.index _ _).1 hk).1, hx⟩

theorem entries_moveFront {c : LRUCache K V σ} (h : Inv c) (e : Nat) (x : entry K V)
    (he : e ∈ c.itemList) (hx : deref c e = some x) :
    entries { c with itemList := e :: c.itemList.erase e } =
      x :: (entries c).filter (fun y => decide (y.key ≠ x.key)) := by
  rw [← h.erase_entries e x he hx]
  unfold entries
  exact List.filterMap_cons_some hx

theorem entries_remove {c : LRUCache K V σ} (h : Inv c) (e : Nat) (x : entry K V)
    (he : e ∈ c.itemList) (hx : deref c e = some x) (m : K → Option Nat) :
    entries { c with itemList := c.itemList.erase e, itemCache := m } =
      (entries c).filter (fun y => decide (y.key ≠ x.key)) := by
  rw [← h.erase_entries e x he hx]
  rfl

theorem deref_setVal_ne (c : LRUCache K V σ) (e a : Nat) (y : entry K V) (l : List Nat)
    (hae : a ≠ e) :
    deref { c with itemList := l, heap := c.heap.set e y } a = deref c a := by
  simp only [deref]
  rw [List.getElem?_set_ne (Ne.symm hae)]

theorem deref_setVal_self (c : LRUCache K V σ) (e : Nat) (y : entry K V) (l : List Nat)
    (he : e < c.heap.length) :
    deref { c with itemList := l, heap := c.heap.set e y } e = some y := by
  simp only [deref]
  rw [List.getElem?_set_self he]

theorem entries_addPresent {c : LRUCache K V σ} (h : Inv c) (e : Nat) (x : entry K V)
    (v : V) (he : e ∈ c.itemList) (hx : deref c e = some x) :
    entries { c with itemList := e :: c.itemList.erase e,
                     heap := c.heap.set e { x with val := v } } =
      { x with val := v } :: (entries c).filter (fun y => decide (y.key ≠ x.key)) := by
  rw [← h.erase_entries e x he hx]
  unfold entries
  rw [List.filterMap_cons_some (deref_setVal_self c e _ _ (h.valid e he))]
  congr 1
  apply List.filterMap_congr
  intro a ha
  exact deref_setVal_ne c e a _ _ (fun hae => h.nodup.not_mem_erase (hae ▸ ha))

theorem deref_push_old (c : LRUCache K V σ) (y : entry K V) (a : Nat)
    (ha : a < c.heap.length) (l : List Nat) (m : K → Option Nat) (w : σ) :
    deref { c with heap := c.heap ++ [y], itemList := l, itemCache := m, world := w } a =
      deref c a := by
  simp only [deref]
  rw [List.getElem?_append_left ha]

theorem deref_push_new (c : LRUCache K V σ) (y : entry K V) (l : List Nat)
    (m : K → Option Nat) (w : σ) :
    deref { c with heap := c.heap ++ [y], itemList := l, itemCache := m, world := w }
      c.heap.length = some y := by
  simp [deref]

theorem entries_push {c : LRUCache K V σ} (h : Inv c) (y : entry K V)
    (m : K → Option Nat) (w : σ) :
    entries { c with heap := c.heap ++ [y], itemList := c.heap.length :: c.itemList,
                     itemCache := m, world := w } = y :: entries c := by
  unfold entries
  rw [List.filterMap_cons_some (deref_push_new c y _ m w)]
  congr 1
  apply List.filterMap_congr
  intro a ha
  exact deref_push_old c y a (h.valid a ha) _ m w

theorem entries_pushDrop {c : LRUCache K V σ} (h : Inv c) (y : entry K V)
    (m : K → Option Nat) (w : σ) :
    entries { c with heap := c.heap ++ [y],
                     itemList := (c.heap.length :: c.itemList).dropLast,
                     itemCache := m, world := w } = (y :: entries c).dropLast := by
  rw [← entries_push h y m w]
  unfold entries
  apply filterMap_dropLast_of_isSome
  intro a ha
  rcases List.mem_cons.1 ha with rfl | ha
  · rw [deref_push_new]; rfl
  · rw [deref_push_old c y a (h.valid a ha)]
    exact h.deref_isSome a ha

/-! ## Recency order -/

theorem lastUse_snoc (k : K) (hist : List (Op K V × Bool)) (ev : Op K V × Bool) :
    lastUse k (hist ++ [ev]) = if touched k ev then hist.length + 1 else lastUse k hist := by
  simp [lastUse, lastUseRev]

theorem lastUseRev_le (k : K) (l : List (Op K V × Bool)) : lastUseRev k l ≤ l.length := by
  induction l with
  | nil => simp [lastUseRev]
  | cons ev t ih =>
    simp only [lastUseRev, List.length_cons]
    split
    · exact le_refl _
    · omega

theorem lastUse_le (k : K) (hist : List (Op K V × Bool)) : lastUse k hist ≤ hist.length := by
  have := lastUseRev_le k hist.reverse
  simpa [lastUse] using this

theorem Recent.untouched {hist : List (Op K V × Bool)} {l l1 : List K}
    (h : Recent hist l) (ev : Op K V × Bool) (hev : ∀ a, touched a ev = false)
    (hsub : l1.Sublist l) : Recent (hist ++ [ev]) l1 := by
  have hlu : ∀ a, lastUse a (hist ++ [ev]) = lastUse a hist := by
    intro a
    rw [lastUse_snoc, hev a]
    simp
  constructor
  · simp only [hlu]
    exact h.1.sublist hsub
  · intro a ha
    rw [hlu]
    exact h.2 a (hsub.subset ha)

theorem Recent.touch {hist : List (Op K V × Bool)} {l l1 : List K}
    (h : Recent hist l) (ev : Op K V × Bool) (k : K)
    (hev : ∀ a, touched a ev = decide (a = k))
    (hsub : l1.Sublist l) (hk : k ∉ l1) : Recent (hist ++ [ev]) (k :: l1) := by
  have hluk : lastUse k (hist ++ [ev]) = hist.length + 1 := by
    rw [lastUse_snoc, hev k]
    simp
  have hlu : ∀ a ∈ l1, lastUse a (hist ++ [ev]) = lastUse a hist := by
    intro a ha
    have hne : a ≠ k := fun hak => hk (hak ▸ ha)
    rw [lastUse_snoc, hev a]
    simp [hne]
  constructor
  · refine List.pairwise_cons.2 ⟨?_, ?_⟩
    · intro a ha
      rw [hluk, hlu a ha]
      have := lastUse_le a hist
      omega
    · have hp := h.1.sublist hsub
      refine hp.imp_of_mem ?_
      intro a b ha hb hab
      rw [hlu a ha, hlu b hb]
      exact hab
  · intro a ha
    rcases List.mem_cons.1 ha with rfl | ha
    · rw [hluk]; omega
    · rw [hlu a ha]
      exact h.2 a (hsub.subset ha)

theorem Recent.sublist {hist : List (Op K V × Bool)} {l l1 : List K}
    (h : Recent hist l) (hsub : l1.Sublist l) : Recent hist l1 :=
  ⟨h.1.sublist hsub, fun a ha => h.2 a (hsub.subset ha)⟩

theorem Add_shape {c : LRUCache K V σ} (h : Inv c) (k : K) (v : V) :
    ∃ d, Add c k v = some d ∧ Inv d ∧ d.size = c.size ∧
      d.expelCallback = c.expelCallback ∧
      ∃ l1, l1.Sublist (keys c) ∧ k ∉ l1 ∧
        (keys d = k :: l1 ∨ keys d = (k :: l1).dropLast) := by
  cases hk : c.itemCache k with
  | some e =>
    obtain ⟨he, x, hx, hxk⟩ := h.lookup hk
    subst hxk
    refine ⟨_, Add_present c x.key v e x hk he hx,
      inv_setVal (inv_moveFront h e he) e x v hx, rfl, rfl,
      ((entries c).filter (fun y => decide (y.key ≠ x.key))).map entry.key,
      (List.filter_sublist _).map _, ?_, Or.inl ?_⟩
    · simp [List.mem_map, List.mem_filter]
    · unfold keys
      rw [entries_addPresent h e x v he hx]
      rfl
  | none =>
    have hnot := (h.not_mem_keys_iff k).1 hk
    by_cases hfit : ((c.itemList.length + 1 : Nat) : Int) ≤ c.size
    · refine ⟨_, Add_absent_fit c k v hk hfit, inv_push h k v hk, rfl, rfl,
        keys c, List.Sublist.refl _, hnot, Or.inl ?_⟩
      unfold keys
      rw [entries_push h _ _ _]
      rfl
    · obtain ⟨last, x, hlast, hmem, hx⟩ := h.back_exists { key := k, val := v }
      refine ⟨_, Add_absent_over c k v last x hk (not_le.1 hfit) h.push_nodup hlast hx,
        ?_, rfl, rfl, keys c, List.Sublist.refl _, hnot, Or.inr ?_⟩
      · have h3 := inv_remove (inv_push h k v hk) last x hmem hx
        refine inv_frame h3 ?_ rfl rfl
        exact (erase_getLast_of_nodup h.push_nodup hlast).symm
      · unfold keys
        rw [entries_pushDrop h _ _ _, List.map_dropLast]
        rfl

theorem Get_shape {c : LRUCache K V σ} (h : Inv c) (k : K) :
    ∃ d r hit, Get c k = some (d, (r, hit)) ∧ Inv d ∧ d.size = c.size ∧
      d.expelCallback = c.expelCallback ∧
      ((hit = true ∧ ∃ l1, l1.Sublist (keys c) ∧ k ∉ l1 ∧ keys d = k :: l1) ∨
       (hit = false ∧ d = c)) := by
  cases hk : c.itemCache k with
  | some e =>
    obtain ⟨he, x, hx, hxk⟩ := h.lookup hk
    subst hxk
    refine ⟨_, _, true, Get_present c x.key e x hk he hx, inv_moveFront h e he, rfl, rfl,
      Or.inl ⟨rfl, ((entries c).filter (fun y => decide (y.key ≠ x.key))).map entry.key,
        (List.filter_sublist _).map _, ?_, ?_⟩⟩
    · simp [List.mem_map, List.mem_filter]
    · unfold keys
      rw [entries_moveFront h e x he hx]
      rfl
  | none => exact ⟨c, none, false, Get_absent c k hk, h, rfl, rfl, Or.inr ⟨rfl, rfl⟩⟩

theorem Del_shape {c : LRUCache K V σ} (h : Inv c) (k : K) :
    ∃ d, Del c k = some d ∧ Inv d ∧ d.size = c.size ∧
      d.expelCallback = c.expelCallback ∧ (keys d).Sublist (keys c) := by
  cases hk : c.itemCache k with
  | some e =>
    obtain ⟨he, x, hx, hxk⟩ := h.lookup hk
    subst hxk
    refine ⟨_, Del_present c x.key e x hk hx, inv_remove h e x he hx, rfl, rfl, ?_⟩
    unfold keys
    rw [entries_remove h e x he hx]
    exact (List.filter_sublist _).map _
  | none => exact ⟨c, Del_absent c k hk, h, rfl, rfl, List.Sublist.refl _⟩

theorem stepHit_recent {c : LRUCache K V σ} (h : Inv c) (hist : List (Op K V × Bool))
    (hr : Recent hist (keys c)) (op : Op K V) :
    ∃ d hit, stepHit c op = some (d, hit) ∧ Inv d ∧ d.size = c.size ∧
      d.expelCallback = c.expelCallback ∧ Recent (hist ++ [(op, hit)]) (keys d) := by
  cases op with
  | add k v =>
    obtain ⟨d, hd, hi, hs, hc, l1, hsub, hk, hkeys⟩ := Add_shape h k v
    refine ⟨d, false, by simp [stepHit, hd], hi, hs, hc, ?_⟩
    have hrec : Recent (hist ++ [(Op.add k v, false)]) (k :: l1) := by
      refine hr.touch _ k ?_ hsub hk
      intro a
      simp [touched, eq_comm]
    rcases hkeys with hkeys | hkeys
    · rw [hkeys]; exact hrec
    · rw [hkeys]; exact hrec.sublist (List.dropLast_sublist _)
  | get k =>
    obtain ⟨d, r, hit, hd, hi, hs, hc, hcase⟩ := Get_shape h k
    refine ⟨d, hit, by simp [stepHit, hd], hi, hs, hc, ?_⟩
    rcases hcase with ⟨rfl, l1, hsub, hk, hkeys⟩ | ⟨rfl, rfl⟩
    · rw [hkeys]
      refine hr.touch _ k ?_ hsub hk
      intro a
      simp [touched, eq_comm]
    · refine hr.untouched _ ?_ (List.Sublist.refl _)
      intro a
      simp [touched]
  | del k =>
    obtain ⟨d, hd, hi, hs, hc, hsub⟩ := Del_shape h k
    refine ⟨d, false, by simp [stepHit, hd], hi, hs, hc, ?_⟩
    refine hr.untouched _ ?_ hsub
    intro a
    simp [touched]

theorem runFrom_recent {c : LRUCache K V σ} (h : Inv c) (hist : List (Op K V × Bool))
    (hr : Recent hist (keys c)) (ops : List (Op K V)) :
    ∃ d hist1, runFrom c hist ops = some (d, hist1) ∧ Inv d ∧ d.size = c.size ∧
      d.expelCallback = c.expelCallback ∧ Recent hist1 (keys d) ∧
      hist1.map Prod.fst = hist.map Prod.fst ++ ops := by
  induction ops generalizing c hist with
  | nil => exact ⟨c, hist, rfl, h, rfl, rfl, hr, by simp⟩
  | cons op t ih =>
    obtain ⟨c1, hit, h1, hi1, hs1, hc1, hr1⟩ := stepHit_recent h hist hr op
    obtain ⟨d, hist1, hd, hid, hsd, hcd, hrd, hops⟩ := ih hi1 _ hr1
    refine ⟨d, hist1, ?_, hid, hsd.trans hs1, hcd.trans hc1, hrd, ?_⟩
    · simp [runFrom, h1, hd]
    · rw [hops]
      simp

theorem runFrom_fst (c : LRUCache K V σ) (hist : List (Op K V × Bool))
    (ops : List (Op K V)) : (runFrom c hist ops).map Prod.fst = run c ops := by
  induction ops generalizing c hist with
  | nil => rfl
  | cons op t ih =>
    have hstep : (stepHit c op).map Prod.fst = step c op := by
      cases op <;> simp [stepHit, step, Option.map_map, Function.comp_def]
    unfold runFrom run
    rw [← hstep]
    cases hs : stepHit c op with
    | none => rfl
    | some p => exact ih p.1 _

theorem Inv.evict_last {c : LRUCache K V σ} (h : Inv c) (hist : List (Op K V × Bool))
    (hr : Recent hist (keys c)) (k : K) (v : V) (hk : c.itemCache k = none)
    (hpos : 1 ≤ c.size) (hfull : (Len c : Int) = c.size) :
    ∃ d x, Add c k v = some d ∧ (entries c).getLast? = some x ∧
      entries d = ({ key := k, val := v } :: entries c).dropLast ∧
      x.key ∈ keys c ∧ x.key ∉ keys d ∧
      d.world = fire c.expelCallback x c.world ∧
      ∀ k1 ∈ keys c, k1 ≠ x.key → k1 ∈ keys d ∧ lastUse x.key hist < lastUse k1 hist := by
  have hover : c.size < ((c.itemList.length + 1 : Nat) : Int) := by
    unfold Len at hfull
    push_cast
    omega
  have hlen : 1 ≤ (entries c).length := by
    rw [h.entries_length]
    unfold Len at hfull ⊢
    omega
  obtain ⟨last, x, hlast, hmem, hx⟩ := h.back_exists { key := k, val := v }
  have hxl : ({ key := k, val := v } :: entries c).getLast? = some x := by
    rw [← entries_push h { key := k, val := v } c.itemCache c.world]
    unfold entries
    rw [getLast?_filterMap_of_isSome]
    · show ((c.heap.length :: c.itemList).getLast?).bind _ = some x
      rw [hlast]
      exact hx
    · intro a ha
      rcases List.mem_cons.1 ha with rfl | ha
      · rw [deref_push_new]; rfl
      · rw [deref_push_old c _ a (h.valid a ha)]
        exact h.deref_isSome a ha
  have hxe : (entries c).getLast? = some x := by
    cases hE : entries c with
    | nil => rw [hE] at hlen; simp at hlen
    | cons a t => rw [hE, List.getLast?_cons_cons] at hxl; exact hxl
  obtain ⟨ini, hini⟩ := List.getLast?_eq_some_iff.1 hxe
  have hent := entries_pushDrop h { key := k, val := v }
    (mapDelete (mapStore c.itemCache k c.heap.length) x.key) (fire c.expelCallback x c.world)
  have hkeysc : keys c = ini.map entry.key ++ [x.key] := by
    unfold keys
    rw [hini]
    simp
  have hdrop : ({ key := k, val := v } :: entries c).dropLast = { key := k, val := v } :: ini := by
    rw [hini, ← List.cons_append, List.dropLast_concat]
  have hknot := (h.not_mem_keys_iff k).1 hk
  have hnd := h.keys_nodup
  rw [hkeysc] at hnd hknot
  have hxini : x.key ∉ ini.map entry.key := by
    intro hm
    exact (List.nodup_append.1 hnd).2.2 hm (by simp)
  refine ⟨_, x, Add_absent_over c k v last x hk hover h.push_nodup hlast hx, hxe, hent,
    ?_, ?_, rfl, ?_⟩
  · rw [hkeysc]; simp
  · unfold keys
    rw [hent, hdrop, List.map_cons, List.mem_cons]
    rintro (hxk | hm)
    · have hxk2 : x.key = k := hxk
      exact hknot (by rw [← hxk2]; simp)
    · exact hxini hm
  · intro k1 hk1 hne
    rw [hkeysc] at hk1
    have hk1i : k1 ∈ ini.map entry.key := by
      rcases List.mem_append.1 hk1 with hm | hm
      · exact hm
      · exact absurd (List.mem_singleton.1 hm) hne
    constructor
    · unfold keys
      rw [hent, hdrop, List.map_cons]
      exact List.mem_cons_of_mem _ hk1i
    · have hp := hr.1
      rw [hkeysc] at hp
      exact (List.pairwise_append.1 hp).2.2 k1 hk1i x.key (by simp)

/-! ## The instrumented `Add` -/

theorem Add_eq_invoke (c : LRUCache K V σ) (k : K) (v : V) :
    Add c k v = (AddTrace c k v).map invoke := by
  unfold Add AddTrace
  cases hk : c.itemCache k with
  | some e =>
    simp only
    cases hd : deref (MoveToFront c e) e <;> simp [invoke]
  | none =>
    simp only [PushFront]
    split
    · cases hb : Back _ with
      | none => simp
      | some last =>
        simp only
        cases hd : deref _ last with
        | none => simp
        | some x =>
          simp only [Option.map_some', invoke, fire]
          cases hcb : c.expelCallback <;> simp [Remove_eq, hcb]
    · simp [invoke]

theorem AddTrace_present (c : LRUCache K V σ) (k : K) (v : V) (e : Nat) (x : entry K V)
    (hk : c.itemCache k = some e) (he : e ∈ c.itemList) (hx : deref c e = some x) :
    AddTrace c k v = some ({ c with itemList := e :: c.itemList.erase e,
                                    heap := c.heap.set e { x with val := v } }, none) := by
  unfold AddTrace
  rw [hk]
  simp only [MoveToFront_eq c e he]
  have hx2 : deref { c with itemList := e :: c.itemList.erase e } e = some x := hx
  rw [hx2]

theorem AddTrace_absent_fit (c : LRUCache K V σ) (k : K) (v : V)
    (hk : c.itemCache k = none) (hfit : ((c.itemList.length + 1 : Nat) : Int) ≤ c.size) :
    AddTrace c k v = some ({ c with heap := c.heap ++ [{ key := k, val := v }],
                                    itemList := c.heap.length :: c.itemList,
                                    itemCache := mapStore c.itemCache k c.heap.length },
                           none) := by
  unfold AddTrace
  rw [hk]
  simp only [PushFront, Len, List.length_cons]
  rw [if_neg (not_lt.2 hfit)]

theorem AddTrace_absent_over (c : LRUCache K V σ) (k : K) (v : V) (last : Nat)
    (x : entry K V)
    (hk : c.itemCache k = none) (hover : c.size < ((c.itemList.length + 1 : Nat) : Int))
    (hn : (c.heap.length :: c.itemList).Nodup)
    (hlast : (c.heap.length :: c.itemList).getLast? = some last)
    (hx : (c.heap ++ [{ key := k, val := v }])[last]? = some x) :
    AddTrace c k v = some ({ c with heap := c.heap ++ [{ key := k, val := v }],
                                    itemList := (c.heap.length :: c.itemList).dropLast,
                                    itemCache :=
                                      mapDelete (mapStore c.itemCache k c.heap.length) x.key },
                           some x) := by
  unfold AddTrace
  rw [hk]
  simp only [PushFront, Len, List.length_cons]
  rw [if_pos hover]
  simp only [Back, hlast, Remove_eq, deref, hx, erase_getLast_of_nodup hn hlast]

theorem Inv.back_entry {c : LRUCache K V σ} (h : Inv c) (y : entry K V) :
    ∃ last x, (c.heap.length :: c.itemList).getLast? = some last ∧
      last ∈ c.heap.length :: c.itemList ∧ (c.heap ++ [y])[last]? = some x ∧
      (y :: entries c).getLast? = some x := by
  obtain ⟨last, x, hlast, hmem, hx⟩ := h.back_exists y
  refine ⟨last, x, hlast, hmem, hx, ?_⟩
  rw [← entries_push h y c.itemCache c.world]
  unfold entries
  rw [getLast?_filterMap_of_isSome]
  · show ((c.heap.length :: c.itemList).getLast?).bind _ = some x
    rw [hlast]
    exact hx
  · intro a ha
    rcases List.mem_cons.1 ha with rfl | ha
    · rw [deref_push_new]; rfl
    · rw [deref_push_old c _ a (h.valid a ha)]
      exact h.deref_isSome a ha

theorem AddTrace_cases {c : LRUCache K V σ} (h : Inv c) (k : K) (v : V) :
    ∃ s ev, AddTrace c k v = some (s, ev) ∧ Inv s ∧ s.size = c.size ∧
      s.expelCallback = c.expelCallback ∧ s.world = c.world ∧
      c.heap.length ≤ s.heap.length ∧
      ((∃ e, c.itemCache k = some e ∧ ev = none ∧
          entries s = { key := k, val := v } ::
            (entries c).filter (fun y => decide (y.key ≠ k))) ∨
       (c.itemCache k = none ∧ ((Len c + 1 : Nat) : Int) ≤ c.size ∧ ev = none ∧
          entries s = { key := k, val := v } :: entries c) ∨
       (c.itemCache k = none ∧ c.size < ((Len c + 1 : Nat) : Int) ∧
          ∃ x, ev = some x ∧ ({ key := k, val := v } :: entries c).getLast? = some x ∧
            entries s = ({ key := k, val := v } :: entries c).dropLast)) := by
  cases hk : c.itemCache k with
  | some e =>
    obtain ⟨he, x, hx, hxk⟩ := h.lookup hk
    subst hxk
    refine ⟨_, none, AddTrace_present c x.key v e x hk he hx,
      inv_setVal (inv_moveFront h e he) e x v hx, rfl, rfl, rfl, ?_,
      Or.inl ⟨e, rfl, rfl, entries_addPresent h e x v he hx⟩⟩
    simp
  | none =>
    by_cases hfit : ((c.itemList.length + 1 : Nat) : Int) ≤ c.size
    · refine ⟨_, none, AddTrace_absent_fit c k v hk hfit, inv_push h k v hk, rfl, rfl, rfl,
        ?_, Or.inr (Or.inl ⟨rfl, hfit, rfl, entries_push h _ _ _⟩)⟩
      simp
    · obtain ⟨last, x, hlast, hmem, hx, hxl⟩ := h.back_entry { key := k, val := v }
      refine ⟨_, some x,
        AddTrace_absent_over c k v last x hk (not_le.1 hfit) h.push_nodup hlast hx,
        ?_, rfl, rfl, rfl, ?_,
        Or.inr (Or.inr ⟨rfl, not_le.1 hfit, x, rfl, hxl, entries_pushDrop h _ _ _⟩)⟩
      · have h3 := inv_remove (inv_push h k v hk) last x hmem hx
        refine inv_frame h3 ?_ rfl rfl
        exact (erase_getLast_of_nodup h.push_nodup hlast).symm
      · simp

theorem invoke_frame (p : LRUCache K V σ × Option (entry K V)) :
    (invoke p).itemList = p.1.itemList ∧ (invoke p).itemCache = p.1.itemCache ∧
    (invoke p).heap = p.1.heap ∧ (invoke p).size = p.1.size ∧
    (invoke p).expelCallback = p.1.expelCallback := by
  unfold invoke
  cases p.2 <;> simp

theorem entries_invoke (p : LRUCache K V σ × Option (entry K V)) :
    entries (invoke p) = entries p.1 := by
  obtain ⟨hl, -, hh, -, -⟩ := invoke_frame p
  unfold entries deref
  rw [hl, hh]

theorem inv_invoke {p : LRUCache K V σ × Option (entry K V)} (h : Inv p.1) :
    Inv (invoke p) := by
  obtain ⟨hl, hm, hh, -, -⟩ := invoke_frame p
  exact inv_frame h hl hm hh

theorem world_invoke (s : LRUCache K V σ) (ev : Option (entry K V)) :
    (invoke (s, ev)).world =
      fireAll s.expelCallback (expelledOf [Obs.added (ev.map (fun x => (x.key, x.val)))])
        s.world := by
  cases ev <;> simp [invoke, fireAll, expelledOf]

/-! ## Observed runs -/

theorem expelledOf_cons (o : Obs K V) (os : List (Obs K V)) :
    expelledOf (o :: os) = expelledOf [o] ++ expelledOf os := by
  cases o with
  | added p => cases p <;> simp [expelledOf]
  | got r hit => simp [expelledOf]
  | deleted => simp [expelledOf]

theorem fireAll_append (cb : Option (K → V → σ → σ)) (ps qs : List (K × V)) (w : σ) :
    fireAll cb (ps ++ qs) w = fireAll cb qs (fireAll cb ps w) := by
  simp [fireAll, List.foldl_append]

theorem stepObs_spec {c : LRUCache K V σ} (h : Inv c) (op : Op K V) :
    ∃ d o, stepObs c op = some (d, o) ∧ step c op = some d ∧ Inv d ∧ d.size = c.size ∧
      d.expelCallback = c.expelCallback ∧ c.heap.length ≤ d.heap.length ∧
      d.world = fireAll c.expelCallback (expelledOf [o]) c.world := by
  cases op with
  | add k v =>
    obtain ⟨s, ev, ht, hi, hs, hc, hw, hh, -⟩ := AddTrace_cases h k v
    obtain ⟨-, -, hh2, hs2, hc2⟩ := invoke_frame (s, ev)
    refine ⟨invoke (s, ev), Obs.added (ev.map (fun x => (x.key, x.val))),
      by simp [stepObs, ht], ?_, inv_invoke hi, hs2.trans hs,
      hc2.trans hc, by rw [hh2]; exact hh, ?_⟩
    · simp [step, Add_eq_invoke, ht]
    · rw [world_invoke, hc, hw]
  | get k =>
    cases hk : c.itemCache k with
    | some e =>
      obtain ⟨he, x, hx, -⟩ := h.lookup hk
      have hg := Get_present c k e x hk he hx
      exact ⟨_, Obs.got (some x.val) true, by simp [stepObs, hg], by simp [step, hg],
        inv_moveFront h e he, rfl, rfl,
        le_refl _, by simp [expelledOf, fireAll]⟩
    | none =>
      have hg := Get_absent c k hk
      exact ⟨_, Obs.got none false, by simp [stepObs, hg], by simp [step, hg], h, rfl, rfl, le_refl _,
        by simp [expelledOf, fireAll]⟩
  | del k =>
    cases hk : c.itemCache k with
    | some e =>
      obtain ⟨he, x, hx, -⟩ := h.lookup hk
      have hg := Del_present c k e x hk hx
      exact ⟨_, Obs.deleted, by simp [stepObs, hg], by simp [step, hg],
        inv_remove h e x he hx, rfl, rfl,
        le_refl _, by simp [expelledOf, fireAll]⟩
    | none =>
      have hg := Del_absent c k hk
      exact ⟨_, Obs.deleted, by simp [stepObs, hg], by simp [step, hg], h, rfl, rfl, le_refl _,
        by simp [expelledOf, fireAll]⟩

theorem runObs_spec {c : LRUCache K V σ} (h : Inv c) (ops : List (Op K V)) :
    ∃ d os, runObs c ops = some (d, os) ∧ run c ops = some d ∧ Inv d ∧ d.size = c.size ∧
      d.expelCallback = c.expelCallback ∧ os.length = ops.length ∧
      d.world = fireAll c.expelCallback (expelledOf os) c.world := by
  induction ops generalizing c with
  | nil => exact ⟨c, [], rfl, rfl, h, rfl, rfl, rfl, rfl⟩
  | cons op t ih =>
    obtain ⟨c1, o, h1, hr1, hi1, hs1, hc1, -, hw1⟩ := stepObs_spec h op
    obtain ⟨d, os, hd, hrd, hid, hsd, hcd, hlen, hwd⟩ := ih hi1
    refine ⟨d, o :: os, by simp [runObs, h1, hd], by simp [run, hr1, hrd], hid,
      hsd.trans hs1, hcd.trans hc1, by simp [hlen], ?_⟩
    rw [expelledOf_cons, fireAll_append, ← hw1, ← hc1]
    exact hwd

theorem last_key_not_mem_dropLast (l : List (entry K V)) (x : entry K V)
    (hn : (l.map entry.key).Nodup) (hx : l.getLast? = some x) :
    x.key ∉ l.dropLast.map entry.key := by
  obtain ⟨ini, rfl⟩ := List.getLast?_eq_some_iff.1 hx
  rw [List.dropLast_concat]
  rw [List.map_append, List.map_singleton] at hn
  intro hm
  exact (List.nodup_append.1 hn).2.2 hm (by simp)

theorem Inv.push_keys_nodup {c : LRUCache K V σ} (h : Inv c) (k : K) (v : V)
    (hk : c.itemCache k = none) :
    ((({ key := k, val := v } : entry K V) :: entries c).map entry.key).Nodup := by
  rw [List.map_cons]
  exact List.nodup_cons.2 ⟨(h.not_mem_keys_iff k).1 hk, h.keys_nodup⟩

/-! ## Adding absent keys -/

theorem Add_absent_keys {c : LRUCache K V σ} (h : Inv c) (k : K) (v : V)
    (hk : c.itemCache k = none) :
    ∃ d, Add c k v = some d ∧ Inv d ∧ d.size = c.size ∧
      d.expelCallback = c.expelCallback ∧
      ((((Len c + 1 : Nat) : Int) ≤ c.size ∧
          entries d = { key := k, val := v } :: entries c ∧ d.world = c.world) ∨
       (c.size < ((Len c + 1 : Nat) : Int) ∧
          entries d = ({ key := k, val := v } :: entries c).dropLast)) := by
  obtain ⟨s, ev, ht, his, hs, hcs, hws, -, hcase⟩ := AddTrace_cases h k v
  obtain ⟨-, -, -, hs2, hc2⟩ := invoke_frame (s, ev)
  refine ⟨invoke (s, ev), by simp [Add_eq_invoke, ht], inv_invoke his, hs2.trans hs,
    hc2.trans hcs, ?_⟩
  rw [entries_invoke]
  rcases hcase with ⟨e, hke, -, -⟩ | ⟨-, hfit, hev, hent⟩ | ⟨-, hover, x, -, -, hent⟩
  · rw [hk] at hke; cases hke
  · subst hev
    exact Or.inl ⟨hfit, hent, hws⟩
  · exact Or.inr ⟨hover, hent⟩

theorem run_addOps_fit {c : LRUCache K V σ} (h : Inv c) (kvs : List (K × V))
    (hnd : (kvs.map Prod.fst).Nodup) (hnew : ∀ p ∈ kvs, c.itemCache p.1 = none)
    (hfit : ((Len c + kvs.length : Nat) : Int) ≤ c.size) :
    ∃ d, run c (addOps kvs) = some d ∧ Inv d ∧ d.size = c.size ∧
      d.expelCallback = c.expelCallback ∧ d.world = c.world ∧
      entries d = kvs.reverse.map entryOf ++ entries c := by
  induction kvs generalizing c with
  | nil => exact ⟨c, rfl, h, rfl, rfl, rfl, by simp⟩
  | cons p t ih =>
    rw [List.map_cons, List.nodup_cons] at hnd
    obtain ⟨d1, hadd, hi1, hs1, hc1, hcase⟩ :=
      Add_absent_keys h p.1 p.2 (hnew p (List.mem_cons_self _ _))
    have hlen : ((Len c + 1 : Nat) : Int) ≤ c.size := by
      simp only [List.length_cons] at hfit
      push_cast at hfit ⊢
      omega
    rcases hcase with ⟨-, hent, hw1⟩ | ⟨hover, -⟩
    · have hL : Len d1 = Len c + 1 := by
        rw [← hi1.entries_length, hent, List.length_cons, h.entries_length]
      have hnew1 : ∀ q ∈ t, d1.itemCache q.1 = none := by
        intro q hq
        rw [hi1.not_mem_keys_iff]
        unfold keys
        rw [hent, List.map_cons, List.mem_cons]
        rintro (hqp | hqc)
        · exact hnd.1 (List.mem_map.2 ⟨q, hq, hqp⟩)
        · exact (h.not_mem_keys_iff q.1).1 (hnew q (List.mem_cons_of_mem _ hq)) hqc
      have hfit1 : ((Len d1 + t.length : Nat) : Int) ≤ d1.size := by
        rw [hL, hs1]
        simp only [List.length_cons] at hfit
        push_cast at hfit ⊢
        omega
      obtain ⟨d, hd, hid, hsd, hcd, hwd, hentd⟩ := ih hi1 hnd.2 hnew1 hfit1
      refine ⟨d, by simp [addOps, run, step, hadd]; exact hd, hid, hsd.trans hs1,
        hcd.trans hc1, hwd.trans hw1, ?_⟩
      rw [hentd, hent]
      simp [entryOf]
    · exact absurd hlen (not_le.2 hover)

theorem rangeKeys_nodup :
    ((((0, 0) : Nat × Nat) :: (List.range' 1 1023).map (fun i => (i, i)) ++ [(1024, 0)]).map
      Prod.fst).Nodup := by
  simp only [List.map_cons, List.map_append, List.map_map, Function.comp_def, List.map_id',
    List.map_nil]
  rw [List.nodup_append, List.nodup_cons]
  refine ⟨⟨?_, List.nodup_range' 1 1023⟩, by simp, ?_⟩
  · simp [List.mem_range'_1]
  · simp only [List.Disjoint, List.mem_cons, List.mem_range'_1, List.mem_singleton,
      List.not_mem_nil, or_false]
    intro a ha hb
    omega

/-! ## The two phases of `Get` and interleavings -/

theorem Get_eq_phases (c : LRUCache K V σ) (k : K) :
    Get c k = match GetLookup c k with
      | some item => GetPromote c item
      | none => some (c, (none, false)) := by
  unfold Get GetLookup GetPromote
  cases c.itemCache k <;> rfl

theorem inv_MoveToFront {c : LRUCache K V σ} (h : Inv c) (e : Nat) :
    Inv (MoveToFront c e) := by
  by_cases he : e ∈ c.itemList
  · rw [MoveToFront_eq c e he]
    exact inv_moveFront h e he
  · rw [MoveToFront_of_not_mem c e he]
    exact h

theorem MoveToFront_frame (c : LRUCache K V σ) (e : Nat) :
    (MoveToFront c e).heap = c.heap ∧ (MoveToFront c e).size = c.size ∧
    (MoveToFront c e).expelCallback = c.expelCallback ∧
    (MoveToFront c e).world = c.world ∧ (MoveToFront c e).itemCache = c.itemCache ∧
    Len (MoveToFront c e) = Len c := by
  by_cases he : e ∈ c.itemList
  · rw [MoveToFront_eq c e he]
    refine ⟨rfl, rfl, rfl, rfl, rfl, ?_⟩
    show (e :: c.itemList.erase e).length = c.itemList.length
    rw [List.length_cons, List.length_erase_of_mem he]
    have := List.length_pos_of_mem he
    omega
  · rw [MoveToFront_of_not_mem c e he]
    exact ⟨rfl, rfl, rfl, rfl, rfl, rfl⟩

theorem GetPromote_spec {c : LRUCache K V σ} (h : Inv c) (item : Nat)
    (hitem : item < c.heap.length) :
    ∃ x, deref c item = some x ∧
      GetPromote c item = some (MoveToFront c item, (some x.val, true)) ∧
      Inv (MoveToFront c item) := by
  have hx : deref c item = some (c.heap[item]) := List.getElem?_eq_getElem hitem
  refine ⟨_, hx, ?_, inv_MoveToFront h item⟩
  unfold GetPromote
  have hx2 : deref (MoveToFront c item) item = some (c.heap[item]) := by
    unfold deref
    rw [(MoveToFront_frame c item).1]
    exact hx
  simp only [hx2]

theorem sysStep_inv {s : Sys K V σ} (h : SysInv s) (ev : Event K V) :
    ∃ s1, sysStep s ev = some s1 ∧ SysInv s1 ∧ s1.cache.size = s.cache.size ∧
      ((Len s.cache : Int) ≤ s.cache.size → (Len s1.cache : Int) ≤ s1.cache.size) := by
  obtain ⟨hi, hp⟩ := h
  cases ev with
  | add k v =>
    obtain ⟨d, -, -, hstep, -, -, -, hheap, -⟩ := stepObs_spec hi (Op.add k v)
    obtain ⟨d2, hd2, hid, hs, -, hl⟩ := Add_total hi k v
    have hdd : d2 = d := by
      have : step s.cache (Op.add k v) = some d2 := hd2
      rw [hstep] at this
      exact (Option.some.inj this).symm
    subst hdd
    exact ⟨{ s with cache := d2 }, by simp [sysStep, hd2],
      ⟨hid, fun t item ht => lt_of_lt_of_le (hp t item ht) hheap⟩, hs, hl⟩
  | del k =>
    obtain ⟨d, -, -, hstep, -, -, -, hheap, -⟩ := stepObs_spec hi (Op.del k)
    obtain ⟨d2, hd2, hid, hs, -, -, hl⟩ := Del_total hi k
    have hdd : d2 = d := by
      have : step s.cache (Op.del k) = some d2 := hd2
      rw [hstep] at this
      exact (Option.some.inj this).symm
    subst hdd
    exact ⟨{ s with cache := d2 }, by simp [sysStep, hd2],
      ⟨hid, fun t item ht => lt_of_lt_of_le (hp t item ht) hheap⟩, hs, hl⟩
  | lookup t k =>
    refine ⟨_, rfl, ⟨hi, ?_⟩, rfl, id⟩
    intro u item hu
    simp only at hu
    split at hu
    · exact hi.valid item ((hi.index k item).1 hu).1
    · exact hp u item hu
  | promote t =>
    cases hpt : s.pending t with
    | none => exact ⟨s, by simp [sysStep, hpt], ⟨hi, hp⟩, rfl, id⟩
    | some item =>
      obtain ⟨x, -, hg, him⟩ := GetPromote_spec hi item (hp t item hpt)
      obtain ⟨hh, hs, -, -, -, hlen⟩ := MoveToFront_frame s.cache item
      refine ⟨{ cache := MoveToFront s.cache item,
                pending := fun u => if u = t then none else s.pending u },
        by simp [sysStep, hpt, hg], ⟨him, ?_⟩, hs, ?_⟩
      · intro u it hu
        simp only at hu
        split at hu
        · cases hu
        · rw [hh]
          exact hp u it hu
      · intro hle
        show (Len (MoveToFront s.cache item) : Int) ≤ (MoveToFront s.cache item).size
        rw [hlen, hs]
        exact hle

theorem sysRun_inv {s : Sys K V σ} (h : SysInv s) (evs : List (Event K V)) :
    ∃ s1, sysRun s evs = some s1 ∧ SysInv s1 ∧ s1.cache.size = s.cache.size ∧
      ((Len s.cache : Int) ≤ s.cache.size → (Len s1.cache : Int) ≤ s1.cache.size) := by
  induction evs generalizing s with
  | nil => exact ⟨s, rfl, h, rfl, id⟩
  | cons ev t ih =>
    obtain ⟨s1, h1, hi1, hs1, hl1⟩ := sysStep_inv h ev
    obtain ⟨s2, h2, hi2, hs2, hl2⟩ := ih hi1
    exact ⟨s2, by simp [sysRun, h1, h2], hi2, hs2.trans hs1, fun hle => hl2 (hl1 hle)⟩

theorem GetPromote_stale (c : LRUCache K V σ) (item : Nat) (x : entry K V)
    (hitem : item ∉ c.itemList) (hx : deref c item = some x) :
    GetPromote c item = some (c, (some x.val, true)) := by
  unfold GetPromote
  simp only [MoveToFront_of_not_mem c item hitem, hx]

theorem Del_stale {c : LRUCache K V σ} (h : Inv c) (k : K) (item : Nat) (x : entry K V)
    (hk : c.itemCache k = some item) (hx : deref c item = some x) :
    ∃ d, Del c k = some d ∧ item ∉ d.itemList ∧ d.itemCache k = none ∧
      deref d item = some x ∧ entries d = (entries c).filter (fun y => decide (y.key ≠ k)) := by
  obtain ⟨he, x1, hx1, hxk⟩ := h.lookup hk
  rw [hx] at hx1
  cases hx1
  subst hxk
  refine ⟨_, Del_present c x.key item x hk hx, h.nodup.not_mem_erase, ?_, hx,
    entries_remove h item x he hx _⟩
  simp [mapDelete]

theorem evict_stale {c : LRUCache K V σ} (h : Inv c) (k : K) (item : Nat) (x : entry K V)
    (hk : c.itemCache k = some item) (hx : deref c item = some x)
    (k2 : K) (v2 : V) (s : LRUCache K V σ) (y : entry K V)
    (ht : AddTrace c k2 v2 = some (s, some y)) (hy : y.key = k) :
    y = x ∧ item ∉ s.itemList ∧ s.itemCache k = none ∧ deref s item = some x := by
  obtain ⟨he, x1, hx1, hxk⟩ := h.lookup hk
  rw [hx] at hx1
  cases hx1
  have hlt := h.valid item he
  cases hk2 : c.itemCache k2 with
  | some e2 =>
    obtain ⟨he2, x2, hx2, -⟩ := h.lookup hk2
    rw [AddTrace_present c k2 v2 e2 x2 hk2 he2 hx2] at ht
    cases ht
  | none =>
    by_cases hfit : ((c.itemList.length + 1 : Nat) : Int) ≤ c.size
    · rw [AddTrace_absent_fit c k2 v2 hk2 hfit] at ht
      cases ht
    · obtain ⟨last, y1, hlast, hmem, hy1⟩ := h.back_exists { key := k2, val := v2 }
      rw [AddTrace_absent_over c k2 v2 last y1 hk2 (not_le.1 hfit) h.push_nodup hlast hy1]
        at ht
      simp only [Option.some.injEq, Prod.mk.injEq] at ht
      obtain ⟨hs, hyy⟩ := ht
      subst hyy
      subst hs
      have hlastl : last ∈ c.itemList := by
        rcases List.mem_cons.1 hmem with hnew | hold
        · exfalso
          rw [hnew] at hy1
          simp at hy1
          rw [← hy1] at hy
          simp only at hy
          rw [hy, hk] at hk2
          cases hk2
        · exact hold
      have hdl : deref c last = some y1 := by
        unfold deref
        rw [List.getElem?_append_left (h.valid last hlastl)] at hy1
        exact hy1
      have hlast_item : last = item := by
        have h1 := (h.index k last).2 ⟨hlastl, by simp [keyAt, hdl, hy]⟩
        rw [hk] at h1
        exact (Option.some.inj h1).symm
      subst hlast_item
      rw [hx] at hdl
      refine ⟨(Option.some.inj hdl).symm, ?_, ?_, ?_⟩
      · show last ∉ (c.heap.length :: c.itemList).dropLast
        rw [← erase_getLast_of_nodup h.push_nodup hlast]
        exact h.push_nodup.not_mem_erase
      · show mapDelete (mapStore c.itemCache k2 c.heap.length) y1.key k = none
        simp [mapDelete, hy]
      · show (c.heap ++ [{ key := k2, val := v2 }])[last]? = some x
        rw [List.getElem?_append_left hlt]
        exact hx

/-! ## Non-positive capacity -/

theorem Inv.empty_of_Len {c : LRUCache K V σ} (h : Inv c) (hl : Len c = 0) :
    entries c = [] ∧ ∀ k, c.itemCache k = none := by
  have he : entries c = [] := List.eq_nil_of_length_eq_zero (by rw [h.entries_length, hl])
  refine ⟨he, fun k => ?_⟩
  rw [h.not_mem_keys_iff]
  unfold keys
  rw [he]
  simp

theorem stepObs_vanish {c : LRUCache K V σ} (h : Inv c) (hl : Len c = 0)
    (hsz : c.size ≤ 0) (op : Op K V) :
    ∃ d, stepObs c op = some (d, vanishObs op) ∧ Inv d ∧ Len d = 0 ∧ d.size = c.size ∧
      d.expelCallback = c.expelCallback ∧
      d.world = fireAll c.expelCallback (expelledOf [vanishObs op]) c.world := by
  obtain ⟨hent, hnone⟩ := h.empty_of_Len hl
  cases op with
  | add k v =>
    obtain ⟨s, ev, ht, his, hs, hcs, hws, -, hcase⟩ := AddTrace_cases h k v
    obtain ⟨hl2, -, -, hs2, hc2⟩ := invoke_frame (s, ev)
    rcases hcase with ⟨e, hke, -, -⟩ | ⟨-, hfit, -, -⟩ | ⟨-, -, x, hev, hlast, hents⟩
    · rw [hnone k] at hke; cases hke
    · rw [hl] at hfit
      norm_num at hfit
      omega
    · subst hev
      rw [hent] at hlast hents
      simp only [List.getLast?_singleton, Option.some.injEq] at hlast
      subst hlast
      have hLs : Len s = 0 := by
        rw [← his.entries_length, hents]
        rfl
      refine ⟨invoke (s, some { key := k, val := v }), by simp [stepObs, ht, vanishObs],
        inv_invoke his, ?_, hs2.trans hs, hc2.trans hcs, ?_⟩
      · unfold Len at hLs ⊢
        rw [hl2]
        exact hLs
      · rw [world_invoke, hcs, hws]
        rfl
  | get k =>
    have hg := Get_absent c k (hnone k)
    exact ⟨c, by simp [stepObs, hg, vanishObs], h, hl, rfl, rfl,
      by simp [vanishObs, expelledOf, fireAll]⟩
  | del k =>
    have hg := Del_absent c k (hnone k)
    exact ⟨c, by simp [stepObs, hg, vanishObs], h, hl, rfl, rfl,
      by simp [vanishObs, expelledOf, fireAll]⟩

theorem runObs_vanish {c : LRUCache K V σ} (h : Inv c) (hl : Len c = 0)
    (hsz : c.size ≤ 0) (ops : List (Op K V)) :
    ∃ d, runObs c ops = some (d, ops.map vanishObs) ∧ Inv d ∧ Len d = 0 ∧
      d.size = c.size ∧ d.expelCallback = c.expelCallback ∧
      d.world = fireAll c.expelCallback (expelledOf (ops.map vanishObs)) c.world := by
  induction ops generalizing c with
  | nil => exact ⟨c, rfl, h, hl, rfl, rfl, rfl⟩
  | cons op t ih =>
    obtain ⟨c1, h1, hi1, hl1, hs1, hc1, hw1⟩ := stepObs_vanish h hl hsz op
    obtain ⟨d, hd, hid, hld, hsd, hcd, hwd⟩ := ih hi1 hl1 (hs1 ▸ hsz)
    refine ⟨d, by simp [runObs, h1, hd], hid, hld, hsd.trans hs1, hcd.trans hc1, ?_⟩
    rw [List.map_cons, expelledOf_cons, fireAll_append, ← hw1, ← hc1]
    exact hwd

/-! ## Refinement of the plain recency list -/

theorem pairs_filter (c : LRUCache K V σ) (k : K) :
    ((entries c).filter (fun y => decide (y.key ≠ k))).map pairOf =
      (pairs c).filter (fun p => decide (p.1 ≠ k)) := by
  unfold pairs
  rw [List.filter_map]
  rfl

theorem pairs_filter_absent (c : LRUCache K V σ) (k : K) (hk : k ∉ keys c) :
    (pairs c).filter (fun p => decide (p.1 ≠ k)) = pairs c := by
  rw [List.filter_eq_self]
  intro p hp
  obtain ⟨y, hy, rfl⟩ := List.mem_map.1 hp
  have : y.key ≠ k := fun hyk => hk (List.mem_map.2 ⟨y, hy, hyk⟩)
  simpa [pairOf] using this

theorem find_pair_absent (c : LRUCache K V σ) (k : K) (hk : k ∉ keys c) :
    (pairs c).find? (fun p => decide (p.1 = k)) = none := by
  rw [List.find?_eq_none]
  intro p hp
  obtain ⟨y, hy, rfl⟩ := List.mem_map.1 hp
  have : y.key ≠ k := fun hyk => hk (List.mem_map.2 ⟨y, hy, hyk⟩)
  simpa [pairOf] using this

theorem find_pair_of_nodup (l : List (entry K V)) (x : entry K V)
    (hn : (l.map entry.key).Nodup) (hx : x ∈ l) :
    (l.map pairOf).find? (fun p => decide (p.1 = x.key)) = some (pairOf x) := by
  induction l with
  | nil => cases hx
  | cons a t ih =>
    rw [List.map_cons, List.nodup_cons] at hn
    rw [List.map_cons]
    by_cases hax : a = x
    · subst hax
      exact List.find?_cons_of_pos _ (by simp [pairOf])
    · have hxt : x ∈ t := by
        rcases List.mem_cons.1 hx with h | h
        · exact absurd h.symm hax
        · exact h
      have hne : a.key ≠ x.key := fun hk => hn.1 (List.mem_map.2 ⟨x, hxt, hk.symm⟩)
      rw [List.find?_cons_of_neg _ (by simpa [pairOf] using hne)]
      exact ih hn.2 hxt

theorem Len_invoke (p : LRUCache K V σ × Option (entry K V)) : Len (invoke p) = Len p.1 := by
  unfold Len
  rw [(invoke_frame p).1]

theorem pairs_length {c : LRUCache K V σ} (h : Inv c) : (pairs c).length = Len c := by
  unfold pairs
  rw [List.length_map, h.entries_length]

theorem AddTrace_refines {c : LRUCache K V σ} (h : Inv c)
    (hcap : (Len c : Int) ≤ c.size ∨ Len c = 0) (k : K) (v : V) :
    ∃ s ev, AddTrace c k v = some (s, ev) ∧ Inv s ∧ s.size = c.size ∧
      s.expelCallback = c.expelCallback ∧ s.world = c.world ∧
      ((Len s : Int) ≤ s.size ∨ Len s = 0) ∧
      modelAdd c.size (pairs c) k v = (pairs s, ev.map pairOf) := by
  obtain ⟨s, ev, ht, his, hs, hcs, hws, -, hcase⟩ := AddTrace_cases h k v
  refine ⟨s, ev, ht, his, hs, hcs, hws, ?_⟩
  have hLs : (pairs s).length = Len s := pairs_length his
  rcases hcase with ⟨e, hke, hev, hent⟩ | ⟨hk, hfit, hev, hent⟩ | ⟨hk, hover, x, hev, hlast, hent⟩
  · have he := ((h.index k e).1 hke).1
    have hpos : 0 < Len c := List.length_pos_of_mem he
    have hle : (Len c : Int) ≤ c.size := by
      rcases hcap with hc | hc
      · exact hc
      · omega
    obtain ⟨d, hd, -, hsd, -, hld⟩ := Add_total h k v
    rw [Add_eq_invoke, ht] at hd
    simp only [Option.map_some', Option.some.injEq] at hd
    subst hd
    have hLd := hld hle
    rw [Len_invoke, hsd] at hLd
    have hps : pairs s = (k, v) :: (pairs c).filter (fun p => decide (p.1 ≠ k)) := by
      rw [← pairs_filter]
      unfold pairs
      rw [hent]
      rfl
    refine ⟨Or.inl (by rw [hs]; exact hLd), ?_⟩
    unfold modelAdd
    simp only
    rw [← hps, hLs, if_neg (not_lt.2 hLd), hev]
    rfl
  · have hkn := (h.not_mem_keys_iff k).1 hk
    have hps : pairs s = (k, v) :: pairs c := by
      unfold pairs
      rw [hent]
      rfl
    have hLen : Len s = Len c + 1 := by
      rw [← hLs, hps, List.length_cons, pairs_length h]
    refine ⟨Or.inl (by rw [hs, hLen]; exact hfit), ?_⟩
    unfold modelAdd
    simp only
    rw [pairs_filter_absent c k hkn, ← hps, hLs, hLen, if_neg (not_lt.2 hfit), hev]
    rfl
  · have hkn := (h.not_mem_keys_iff k).1 hk
    have hps : pairs s = ((k, v) :: pairs c).dropLast := by
      unfold pairs
      rw [hent, List.map_dropLast]
      rfl
    have hLen : Len s = Len c := by
      rw [← hLs, hps, List.length_dropLast_cons, pairs_length h]
    have hlastp : ((k, v) :: pairs c).getLast? = ev.map pairOf := by
      have : (k, v) :: pairs c = (({ key := k, val := v } : entry K V) :: entries c).map pairOf :=
        rfl
      rw [this, List.getLast?_map, hlast, hev]
    refine ⟨?_, ?_⟩
    · rcases hcap with hc | hc
      · exact Or.inl (by rw [hs, hLen]; exact hc)
      · exact Or.inr (by rw [hLen]; exact hc)
    · unfold modelAdd
      simp only
      rw [pairs_filter_absent c k hkn]
      have hlt : c.size < (((k, v) :: pairs c).length : Int) := by
        rw [List.length_cons, pairs_length h]
        exact hover
      rw [if_pos hlt, hps, hlastp]

theorem stepObs_refines {c : LRUCache K V σ} (h : Inv c)
    (hcap : (Len c : Int) ≤ c.size ∨ Len c = 0) (op : Op K V) :
    ∃ d o, stepObs c op = some (d, o) ∧ Inv d ∧ d.size = c.size ∧
      d.expelCallback = c.expelCallback ∧
      ((Len d : Int) ≤ d.size ∨ Len d = 0) ∧
      d.world = fireAll c.expelCallback (expelledOf [o]) c.world ∧
      modelStep c.size (pairs c) op = (pairs d, o) := by
  cases op with
  | add k v =>
    obtain ⟨s, ev, ht, his, hs, hcs, hws, hP, hm⟩ := AddTrace_refines h hcap k v
    obtain ⟨-, -, -, hs2, hc2⟩ := invoke_frame (s, ev)
    refine ⟨invoke (s, ev), Obs.added (ev.map (fun x => (x.key, x.val))),
      by simp [stepObs, ht], inv_invoke his, hs2.trans hs, hc2.trans hcs, ?_, ?_, ?_⟩
    · rw [Len_invoke, hs2]
      exact hP
    · rw [world_invoke, hcs, hws]
    · have hp : pairs (invoke (s, ev)) = pairs s := by
        unfold pairs
        rw [entries_invoke]
      simp only [modelStep, hm, hp]
      rfl
  | get k =>
    cases hk : c.itemCache k with
    | some e =>
      obtain ⟨he, x, hx, hxk⟩ := h.lookup hk
      subst hxk
      have hg := Get_present c x.key e x hk he hx
      have hxm : x ∈ entries c := (h.mem_entries x).2 ⟨e, hk, hx⟩
      have hfind := find_pair_of_nodup (entries c) x h.keys_nodup hxm
      have hlen : (e :: c.itemList.erase e).length = c.itemList.length := by
        rw [List.length_cons, List.length_erase_of_mem he]
        have := List.length_pos_of_mem he
        omega
      refine ⟨_, Obs.got (some x.val) true, by simp [stepObs, hg], inv_moveFront h e he,
        rfl, rfl, ?_, by simp [expelledOf, fireAll], ?_⟩
      · simp only [Len, hlen]
        exact hcap
      · have hp : pairs { c with itemList := e :: c.itemList.erase e } =
            pairOf x :: (pairs c).filter (fun p => decide (p.1 ≠ x.key)) := by
          rw [← pairs_filter]
          unfold pairs
          rw [entries_moveFront h e x he hx]
          rfl
        have hfind2 : (pairs c).find? (fun p => decide (p.1 = x.key)) = some (pairOf x) :=
          hfind
        simp only [modelStep, modelGet, hfind2, hp]
        rfl
    | none =>
      have hg := Get_absent c k hk
      have hfind := find_pair_absent c k ((h.not_mem_keys_iff k).1 hk)
      refine ⟨c, Obs.got none false, by simp [stepObs, hg], h, rfl, rfl, hcap,
        by simp [expelledOf, fireAll], ?_⟩
      simp only [modelStep, modelGet, hfind]
  | del k =>
    cases hk : c.itemCache k with
    | some e =>
      obtain ⟨he, x, hx, hxk⟩ := h.lookup hk
      subst hxk
      have hg := Del_present c x.key e x hk hx
      have hlen : (c.itemList.erase e).length ≤ c.itemList.length := by
        rw [List.length_erase_of_mem he]
        omega
      refine ⟨_, Obs.deleted, by simp [stepObs, hg], inv_remove h e x he hx, rfl, rfl, ?_,
        by simp [expelledOf, fireAll], ?_⟩
      · rcases hcap with hc | hc
        · left
          simp only [Len] at hc ⊢
          omega
        · right
          simp only [Len] at hc ⊢
          omega
      · have hp : pairs { c with itemList := c.itemList.erase e,
                                 itemCache := mapDelete c.itemCache x.key } =
            (pairs c).filter (fun p => decide (p.1 ≠ x.key)) := by
          rw [← pairs_filter]
          unfold pairs
          rw [entries_remove h e x he hx]
        simp only [modelStep, modelDel, hp]
    | none =>
      have hg := Del_absent c k hk
      refine ⟨c, Obs.deleted, by simp [stepObs, hg], h, rfl, rfl, hcap,
        by simp [expelledOf, fireAll], ?_⟩
      simp only [modelStep, modelDel, pairs_filter_absent c k ((h.not_mem_keys_iff k).1 hk)]

theorem runObs_refines {c : LRUCache K V σ} (h : Inv c)
    (hcap : (Len c : Int) ≤ c.size ∨ Len c = 0) (ops : List (Op K V)) :
    ∃ d os, runObs c ops = some (d, os) ∧ Inv d ∧ d.size = c.size ∧
      d.expelCallback = c.expelCallback ∧
      d.world = fireAll c.expelCallback (expelledOf os) c.world ∧
      modelRun c.size (pairs c) ops = (pairs d, os) := by
  induction ops generalizing c with
  | nil => exact ⟨c, [], rfl, h, rfl, rfl, rfl, rfl⟩
  | cons op t ih =>
    obtain ⟨c1, o, h1, hi1, hs1, hc1, hP1, hw1, hm1⟩ := stepObs_refines h hcap op
    obtain ⟨d, os, hd, hid, hsd, hcd, hwd, hmd⟩ := ih hi1 hP1
    refine ⟨d, o :: os, by simp [runObs, h1, hd], hid, hsd.trans hs1, hcd.trans hc1, ?_, ?_⟩
    · rw [expelledOf_cons, fireAll_append, ← hw1, ← hc1]
      exact hwd
    · rw [hs1] at hmd
      simp only [modelRun, hm1, hmd]

end facts

theorem sample_inv : Inv sample where
  valid := by decide
  nodup := by decide
  index := by
    intro k e
    simp only [sample, keyAt, deref, List.mem_cons, List.mem_singleton, List.not_mem_nil,
      or_false]
    constructor
    · intro hs
      split at hs
      · rename_i hk
        cases hs
        subst hk
        exact ⟨Or.inl rfl, rfl⟩
      · split at hs
        · rename_i hk
          cases hs
          subst hk
          exact ⟨Or.inr rfl, rfl⟩
        · cases hs
    · rintro ⟨he | he, hk⟩
      · subst he
        simp at hk
        subst hk
        rfl
      · subst he
        simp at hk
        subst hk
        rfl

theorem zeroCache_inv : Inv zeroCache :=
  NewLRU_inv [] _ (fun o ho => by
    rcases List.mem_cons.1 ho with rfl | ho
    · exact Or.inl ⟨0, rfl⟩
    · exact Or.inr ⟨some recordCall, List.mem_singleton.1 ho⟩)

/-! ## The claims -/

section claims
variable {K V σ : Type} [DecidableEq K]

/-- C1 (joint Index/Order invariant): for every cache built by `NewLRU` from
options `WithCacheSize`/`WithExpelCallback` and every sequence of `Add`, `Get`,
`Del` calls, after each call (each prefix `ops.take n` of the sequence) the run
has not panicked and (a) the recency list holds no key twice, (b) the keys of the
index are exactly the keys of the recency list, (c) every index entry for `k`
refers to a linked element whose entry has key `k`; moreover every linked
element has its index entry. -/
theorem C1_index_order_invariant (w : σ) (opts : List (option K V σ))
    (hopts : ∀ o ∈ opts, IsOption o) (ops : List (Op K V)) (n : Nat) :
    ∃ c, run (NewLRU w opts) (ops.take n) = some c ∧
      (keys c).Nodup ∧
      (∀ k, (c.itemCache k).isSome ↔ k ∈ keys c) ∧
      (∀ k e, c.itemCache k = some e →
        e ∈ c.itemList ∧ ∃ x, deref c e = some x ∧ x.key = k) ∧
      (∀ e ∈ c.itemList, ∃ x, deref c e = some x ∧ c.itemCache x.key = some e) := by
  obtain ⟨c, hc, hi, -⟩ := run_total (NewLRU_inv w opts hopts) (ops.take n)
  exact ⟨c, hc, hi.keys_nodup, hi.mem_keys_iff, fun k e hk => hi.lookup hk, hi.linked⟩

/-- Witness of C1: capacity 2, five calls. -/
theorem C1_index_order_invariant_witness :
    (∀ o ∈ [(WithCacheSize 2 : option Nat Nat Unit)], IsOption o) ∧
    ∃ c, run (NewLRU () [(WithCacheSize 2 : option Nat Nat Unit)])
        ([Op.add 1 10, Op.add 2 20, Op.add 3 30, Op.get 2, Op.del 3].take 5) = some c ∧
      (keys c).Nodup ∧
      (∀ k, (c.itemCache k).isSome ↔ k ∈ keys c) ∧
      (∀ k e, c.itemCache k = some e →
        e ∈ c.itemList ∧ ∃ x, deref c e = some x ∧ x.key = k) ∧
      (∀ e ∈ c.itemList, ∃ x, deref c e = some x ∧ c.itemCache x.key = some e) :=
  ⟨fun _ ho => Or.inl ⟨2, List.mem_singleton.1 ho⟩,
   C1_index_order_invariant () [WithCacheSize 2]
     (fun _ ho => Or.inl ⟨2, List.mem_singleton.1 ho⟩) _ 5⟩

/-- C2 (capacity invariant): for every cache built by `NewLRU` whose capacity
`cap` (set by `WithCacheSize` or the default) is at least 1, and every sequence
of `Add`, `Get`, `Del` calls from the empty cache, after each call the number of
entries held (elements of the recency list, equally entries read through them)
is at most `cap`. -/
theorem C2_capacity_invariant (w : σ) (opts : List (option K V σ))
    (hopts : ∀ o ∈ opts, IsOption o) (cap : Int) (hcap : (NewLRU w opts).size = cap)
    (hpos : 1 ≤ cap) (ops : List (Op K V)) (n : Nat) :
    ∃ c, run (NewLRU w opts) (ops.take n) = some c ∧
      (Len c : Int) ≤ cap ∧ (entries c).length = Len c := by
  obtain ⟨c, hc, hi, hs, -, hl⟩ := run_total (NewLRU_inv w opts hopts) (ops.take n)
  refine ⟨c, hc, ?_, hi.entries_length⟩
  rw [← hcap, ← hs]
  apply hl
  rw [NewLRU_Len w opts hopts, hcap]
  simp only [Nat.cast_zero]
  omega

/-- Witness of C2: capacity 2, three distinct keys added. -/
theorem C2_capacity_invariant_witness :
    (∀ o ∈ [(WithCacheSize 2 : option Nat Nat Unit)], IsOption o) ∧
    (NewLRU () [(WithCacheSize 2 : option Nat Nat Unit)]).size = 2 ∧ (1 : Int) ≤ 2 ∧
    ∃ c, run (NewLRU () [(WithCacheSize 2 : option Nat Nat Unit)])
        ([Op.add 1 10, Op.add 2 20, Op.add 3 30].take 3) = some c ∧
      (Len c : Int) ≤ 2 ∧ (entries c).length = Len c :=
  ⟨fun _ ho => Or.inl ⟨2, List.mem_singleton.1 ho⟩, rfl, by decide,
   C2_capacity_invariant () [WithCacheSize 2]
     (fun _ ho => Or.inl ⟨2, List.mem_singleton.1 ho⟩) 2 rfl (by decide) _ 3⟩

/-- C3 (recency invariant): from an empty cache of capacity at least 1, after
every sequence of `Add`, `Get`, `Del` calls (with `hist` the calls made, each
with its hit flag, and `lastUse k hist` the position of the most recent `Add` or
successful `Get` of `k`) the recency list lists the held keys in strictly
decreasing order of their last use, each of them having been used; and whenever
the next call is an `Add` of an absent key while the cache holds exactly
`capacity` entries, that `Add` evicts exactly the entry `x` at the back, which is
handed to the callback, and the key of `x` is the held key whose last use is the
earliest: every other held key stays and has a strictly later last use. -/
theorem C3_recency_invariant (w : σ) (opts : List (option K V σ))
    (hopts : ∀ o ∈ opts, IsOption o) (hpos : 1 ≤ (NewLRU w opts).size)
    (ops : List (Op K V)) :
    ∃ c hist, runHist (NewLRU w opts) ops = some (c, hist) ∧
      run (NewLRU w opts) ops = some c ∧
      hist.map Prod.fst = ops ∧
      (keys c).Pairwise (fun a b => lastUse b hist < lastUse a hist) ∧
      (∀ a ∈ keys c, 0 < lastUse a hist) ∧
      ∀ k v, c.itemCache k = none → (Len c : Int) = c.size →
        ∃ d x, Add c k v = some d ∧ (entries c).getLast? = some x ∧
          entries d = ({ key := k, val := v } :: entries c).dropLast ∧
          x.key ∈ keys c ∧ x.key ∉ keys d ∧
          d.world = fire c.expelCallback x c.world ∧
          ∀ k1 ∈ keys c, k1 ≠ x.key →
            k1 ∈ keys d ∧ lastUse x.key hist < lastUse k1 hist := by
  have h0 := NewLRU_inv w opts hopts
  have hr0 : Recent ([] : List (Op K V × Bool)) (keys (NewLRU w opts)) := by
    obtain ⟨n, cb, he⟩ := NewLRU_eq w opts hopts
    rw [he]
    exact ⟨List.Pairwise.nil, fun a ha => by cases ha⟩
  obtain ⟨c, hist, hrun, hi, hs, -, hr, hops⟩ := runFrom_recent h0 [] hr0 ops
  have hrun2 : run (NewLRU w opts) ops = some c := by
    rw [← runFrom_fst _ [] ops, hrun]
    rfl
  refine ⟨c, hist, hrun, hrun2, by simpa using hops, hr.1, hr.2, ?_⟩
  intro k v hk hfull
  exact hi.evict_last hist hr k v hk (hs ▸ hpos) hfull

/-- Witness of C3: capacity 2, the calls `Add(1,10)`, `Add(2,20)`, `Get(1)`. -/
theorem C3_recency_invariant_witness :
    (∀ o ∈ [(WithCacheSize 2 : option Nat Nat Unit)], IsOption o) ∧
    1 ≤ (NewLRU () [(WithCacheSize 2 : option Nat Nat Unit)]).size ∧
    ∃ c hist, runHist (NewLRU () [(WithCacheSize 2 : option Nat Nat Unit)])
        [Op.add 1 10, Op.add 2 20, Op.get 1] = some (c, hist) ∧
      (keys c).Pairwise (fun a b => lastUse b hist < lastUse a hist) :=
  ⟨fun _ ho => Or.inl ⟨2, List.mem_singleton.1 ho⟩, by decide,
   (C3_recency_invariant () [WithCacheSize 2]
     (fun _ ho => Or.inl ⟨2, List.mem_singleton.1 ho⟩) (by decide)
     [Op.add 1 10, Op.add 2 20, Op.get 1]).imp fun _ hc =>
       hc.imp fun _ hh => ⟨hh.1, hh.2.2.2.1⟩⟩

/-- C4 (Add of an absent key): on a consistent state where `k` is not in the
index, `Add k v` returns; it allocates a new element holding `(k, v)`, links it
at the front and stores it in the index.  If the new length is at most the
capacity nothing else changes.  If it exceeds the capacity exactly one entry is
removed, the one at the back of the list, from the list and from the index (and
handed to the callback): the entries are then those of the old list with
`(k, v)` in front and the last one dropped, so the length is the old one.  In
both cases the old elements keep their entries and their order.  With a capacity
of at least 1 the new entry is at the front of the final list and in the final
index. -/
theorem C4_add_absent (c : LRUCache K V σ) (h : Inv c) (k : K) (v : V)
    (hk : c.itemCache k = none) :
    ∃ d, Add c k v = some d ∧
      d.size = c.size ∧ d.expelCallback = c.expelCallback ∧
      deref d c.heap.length = some { key := k, val := v } ∧
      c.heap.length ∉ c.itemList ∧
      (∀ a ∈ c.itemList, deref d a = deref c a) ∧
      (((Len c + 1 : Nat) : Int) ≤ c.size →
        d.itemList = c.heap.length :: c.itemList ∧
        d.itemCache = mapStore c.itemCache k c.heap.length ∧
        entries d = { key := k, val := v } :: entries c ∧
        d.world = c.world) ∧
      (c.size < ((Len c + 1 : Nat) : Int) →
        ∃ x, ({ key := k, val := v } :: entries c).getLast? = some x ∧
          d.itemList = (c.heap.length :: c.itemList).dropLast ∧
          d.itemCache = mapDelete (mapStore c.itemCache k c.heap.length) x.key ∧
          entries d = ({ key := k, val := v } :: entries c).dropLast ∧
          Len d = Len c ∧
          d.world = fire c.expelCallback x c.world) ∧
      (1 ≤ c.size →
        d.itemList.head? = some c.heap.length ∧
        d.itemCache k = some c.heap.length ∧
        (entries d).head? = some { key := k, val := v }) := by
  have hnew : c.heap.length ∉ c.itemList := fun hm => lt_irrefl _ (h.valid _ hm)
  by_cases hfit : ((c.itemList.length + 1 : Nat) : Int) ≤ c.size
  · refine ⟨_, Add_absent_fit c k v hk hfit, rfl, rfl, deref_push_new c _ _ _ _, hnew,
      fun a ha => deref_push_old c _ a (h.valid a ha) _ _ _, ?_, ?_, ?_⟩
    · intro _
      exact ⟨rfl, rfl, entries_push h _ _ _, rfl⟩
    · intro hover
      exact absurd hfit (not_le.2 hover)
    · intro _
      refine ⟨rfl, by simp [mapStore], ?_⟩
      rw [entries_push h _ _ _]
      rfl
  · have hover := not_le.1 hfit
    obtain ⟨last, x, hlast, hmem, hx⟩ := h.back_exists { key := k, val := v }
    have hxl : ({ key := k, val := v } :: entries c).getLast? = some x := by
      rw [← entries_push h { key := k, val := v } c.itemCache c.world]
      unfold entries
      rw [getLast?_filterMap_of_isSome]
      · show ((c.heap.length :: c.itemList).getLast?).bind _ = some x
        rw [hlast]
        exact hx
      · intro a ha
        rcases List.mem_cons.1 ha with rfl | ha
        · rw [deref_push_new]; rfl
        · rw [deref_push_old c _ a (h.valid a ha)]
          exact h.deref_isSome a ha
    refine ⟨_, Add_absent_over c k v last x hk hover h.push_nodup hlast hx, rfl, rfl,
      deref_push_new c _ _ _ _, hnew,
      fun a ha => deref_push_old c _ a (h.valid a ha) _ _ _, ?_, ?_, ?_⟩
    · intro hle
      exact absurd hle hfit
    · intro _
      refine ⟨x, hxl, rfl, rfl, entries_pushDrop h _ _ _, ?_, rfl⟩
      simp [Len]
    · intro hpos
      have hlen : 1 ≤ c.itemList.length := by
        have : (1 : Int) < ((c.itemList.length + 1 : Nat) : Int) := lt_of_le_of_lt hpos hover
        omega
      have hel : 1 ≤ (entries c).length := by rw [h.entries_length]; exact hlen
      have hhead : (c.heap.length :: c.itemList).dropLast.head? = some c.heap.length := by
        cases hl : c.itemList with
        | nil => rw [hl] at hlen; simp at hlen
        | cons a t => simp
      have hx3 : x.key ≠ k := by
        intro hxk
        have hxm : x ∈ entries c := by
          cases hE : entries c with
          | nil => rw [hE] at hel; simp at hel
          | cons a t =>
            rw [hE, List.getLast?_cons_cons] at hxl
            exact List.mem_of_getLast?_eq_some hxl
        obtain ⟨e, he, -⟩ := (h.mem_entries x).1 hxm
        rw [hxk, hk] at he
        cases he
      refine ⟨hhead, ?_, ?_⟩
      · show mapDelete (mapStore c.itemCache k c.heap.length) x.key k = some c.heap.length
        simp [mapDelete, mapStore, Ne.symm hx3]
      · rw [entries_pushDrop h _ _ _]
        cases hE : entries c with
        | nil => rw [hE] at hel; simp at hel
        | cons a t => simp

/-- Witness of C4: adding key 3 to the full `sample` cache evicts the entry of
key 1 and reports it to the callback. -/
theorem C4_add_absent_witness :
    Inv sample ∧ sample.itemCache 3 = none ∧
    ∃ d, Add sample 3 30 = some d ∧
      (sample.size < ((Len sample + 1 : Nat) : Int) →
        entries d = ({ key := 3, val := 30 } :: entries sample).dropLast ∧
        ∃ x, ({ key := 3, val := 30 } :: entries sample).getLast? = some x ∧
          d.world = fire sample.expelCallback x sample.world) :=
  ⟨sample_inv, rfl,
   (C4_add_absent sample sample_inv 3 30 rfl).imp fun _ hd =>
     ⟨hd.1, fun hov =>
       (hd.2.2.2.2.2.2.2.1 hov).elim fun x hx => ⟨hx.2.2.2.1, x, hx.1, hx.2.2.2.2.2⟩⟩⟩

/-- C5 (update-not-insert): on a consistent state where the index holds `k`
(at element `e`), `Add k v` returns; it moves `e` to the front of the recency
list and sets its value to `v`; the index, the environment of the callback (so
the callback is not invoked), the capacity, the number of entries and the set of
keys are unchanged, and all other entries keep their values and relative
order. -/
theorem C5_add_present (c : LRUCache K V σ) (h : Inv c) (k : K) (v : V) (e : Nat)
    (hk : c.itemCache k = some e) :
    ∃ d, Add c k v = some d ∧
      d.itemList = e :: c.itemList.erase e ∧
      deref d e = some { key := k, val := v } ∧
      (∀ a, a ≠ e → deref d a = deref c a) ∧
      entries d = { key := k, val := v } :: (entries c).filter (fun y => decide (y.key ≠ k)) ∧
      d.itemCache = c.itemCache ∧
      d.world = c.world ∧
      Len d = Len c ∧
      (entries d).length = (entries c).length ∧
      (∀ k1, k1 ∈ keys d ↔ k1 ∈ keys c) ∧
      d.size = c.size ∧ d.expelCallback = c.expelCallback := by
  obtain ⟨he, x, hx, hxk⟩ := h.lookup hk
  subst hxk
  have hd : Inv { c with itemList := e :: c.itemList.erase e,
                         heap := c.heap.set e { x with val := v } } :=
    inv_setVal (inv_moveFront h e he) e x v hx
  have hlen : (e :: c.itemList.erase e).length = c.itemList.length := by
    rw [List.length_cons, List.length_erase_of_mem he]
    have := List.length_pos_of_mem he
    omega
  refine ⟨_, Add_present c x.key v e x hk he hx, rfl,
    deref_setVal_self c e _ _ (h.valid e he),
    fun a hae => deref_setVal_ne c e a _ _ hae,
    entries_addPresent h e x v he hx, rfl, rfl, hlen, ?_, ?_, rfl, rfl⟩
  · rw [hd.entries_length, h.entries_length]
    exact hlen
  · intro k1
    rw [← hd.mem_keys_iff, ← h.mem_keys_iff]

/-- Witness of C5: `Add(1, 11)` on `sample`, where key 1 is held at element 0. -/
theorem C5_add_present_witness :
    Inv sample ∧ sample.itemCache 1 = some 0 ∧
    ∃ d, Add sample 1 11 = some d ∧
      entries d = { key := 1, val := 11 } ::
        (entries sample).filter (fun y => decide (y.key ≠ 1)) ∧
      d.world = sample.world ∧ Len d = Len sample :=
  ⟨sample_inv, rfl,
   (C5_add_present sample sample_inv 1 11 0 rfl).imp fun _ hd =>
     ⟨hd.1, hd.2.2.2.2.1, hd.2.2.2.2.2.2.1, hd.2.2.2.2.2.2.2.1⟩⟩

/-- C6 (Get on a present key): on a consistent state whose recency list holds
the entry `(k, v)`, `Get k` returns `(v, true)` and moves the element of `k` to
the front of the recency list; memory (every stored value), the index, the set
of keys, the relative order of the other entries and the environment of the
callback (so the callback is not invoked) are unchanged. -/
theorem C6_get_present (c : LRUCache K V σ) (h : Inv c) (k : K) (v : V)
    (hkv : { key := k, val := v } ∈ entries c) :
    ∃ d e, c.itemCache k = some e ∧
      Get c k = some (d, (some v, true)) ∧
      d.itemList = e :: c.itemList.erase e ∧
      entries d = { key := k, val := v } :: (entries c).filter (fun y => decide (y.key ≠ k)) ∧
      d.heap = c.heap ∧ d.itemCache = c.itemCache ∧ d.world = c.world ∧
      (∀ k1, k1 ∈ keys d ↔ k1 ∈ keys c) ∧
      d.size = c.size ∧ d.expelCallback = c.expelCallback := by
  obtain ⟨e, hk, hx⟩ := (h.mem_entries _).1 hkv
  have he := ((h.index _ _).1 hk).1
  have hd : Inv { c with itemList := e :: c.itemList.erase e } := inv_moveFront h e he
  refine ⟨_, e, hk, Get_present c k e _ hk he hx, rfl, entries_moveFront h e _ he hx,
    rfl, rfl, rfl, ?_, rfl, rfl⟩
  intro k1
  rw [← hd.mem_keys_iff, ← h.mem_keys_iff]

/-- Witness of C6: `Get(1)` on `sample`, which holds `(1, 10)`. -/
theorem C6_get_present_witness :
    Inv sample ∧ ({ key := 1, val := 10 } : entry Nat Nat) ∈ entries sample ∧
    ∃ d e, sample.itemCache 1 = some e ∧ Get sample 1 = some (d, (some 10, true)) ∧
      d.itemList = e :: sample.itemList.erase e :=
  ⟨sample_inv, by decide,
   (C6_get_present sample sample_inv 1 10 (by decide)).imp fun _ hd =>
     hd.imp fun _ he => ⟨he.1, he.2.1, he.2.2.1⟩⟩

/-- C7 (Get on an absent key): on every state (consistent or not) where the
index does not hold `k`, `Get k` returns `(nil, false)` and the state, that is
recency list, memory, index and environment, is exactly as before. -/
theorem C7_get_absent (c : LRUCache K V σ) (k : K) (hk : c.itemCache k = none) :
    Get c k = some (c, (none, false)) :=
  Get_absent c k hk

/-- Witness of C7: `Get(3)` on `sample`, which does not hold key 3. -/
theorem C7_get_absent_witness :
    sample.itemCache 3 = none ∧ Get sample 3 = some (sample, (none, false)) :=
  ⟨rfl, C7_get_absent sample 3 rfl⟩

/-- C8 (Del on a present key): on a consistent state where the index holds `k`
(at element `e`), `Del k` returns; it unlinks `e` from the recency list and
deletes `k` from the index, so that there is one entry less and `k` is no longer
a key; all other keys stay, the other entries keep their values and relative
order, and the environment of the callback is unchanged (the callback is not
invoked). -/
theorem C8_del_present (c : LRUCache K V σ) (h : Inv c) (k : K) (e : Nat)
    (hk : c.itemCache k = some e) :
    ∃ d, Del c k = some d ∧
      d.itemList = c.itemList.erase e ∧
      d.itemCache = mapDelete c.itemCache k ∧
      entries d = (entries c).filter (fun y => decide (y.key ≠ k)) ∧
      Len d + 1 = Len c ∧
      k ∉ keys d ∧
      (∀ k1, k1 ≠ k → (k1 ∈ keys d ↔ k1 ∈ keys c)) ∧
      d.heap = c.heap ∧ d.world = c.world ∧
      d.size = c.size ∧ d.expelCallback = c.expelCallback := by
  obtain ⟨he, x, hx, hxk⟩ := h.lookup hk
  subst hxk
  have hent := entries_remove h e x he hx (mapDelete c.itemCache x.key)
  refine ⟨_, Del_present c x.key e x hk hx, rfl, rfl, hent, ?_, ?_, ?_, rfl, rfl, rfl, rfl⟩
  · show (c.itemList.erase e).length + 1 = c.itemList.length
    rw [List.length_erase_of_mem he]
    have := List.length_pos_of_mem he
    omega
  · unfold keys
    rw [hent]
    simp [List.mem_map, List.mem_filter]
  · intro k1 hk1
    unfold keys
    rw [hent]
    simp only [List.mem_map, List.mem_filter, decide_eq_true_eq]
    constructor
    · rintro ⟨y, ⟨hy, -⟩, rfl⟩
      exact ⟨y, hy, rfl⟩
    · rintro ⟨y, hy, rfl⟩
      exact ⟨y, ⟨hy, hk1⟩, rfl⟩

/-- Witness of C8: `Del(2)` on `sample`, where key 2 is held at element 1. -/
theorem C8_del_present_witness :
    Inv sample ∧ sample.itemCache 2 = some 1 ∧
    ∃ d, Del sample 2 = some d ∧ d.itemList = sample.itemList.erase 1 ∧
      d.itemCache = mapDelete sample.itemCache 2 ∧ Len d + 1 = Len sample :=
  ⟨sample_inv, rfl,
   (C8_del_present sample sample_inv 2 1 rfl).imp fun _ hd =>
     ⟨hd.1, hd.2.1, hd.2.2.1, hd.2.2.2.2.1⟩⟩

/-- C9 (Del on an absent key is a no-op): on every state (consistent or not)
where the index does not hold `k`, `Del k` returns without panic and the state,
that is recency list, memory, index and environment of the callback, is exactly
as before. -/
theorem C9_del_absent (c : LRUCache K V σ) (k : K) (hk : c.itemCache k = none) :
    Del c k = some c :=
  Del_absent c k hk

/-- Witness of C9: `Del(3)` on `sample`, which does not hold key 3. -/
theorem C9_del_absent_witness :
    sample.itemCache 3 = none ∧ Del sample 3 = some sample :=
  ⟨rfl, C9_del_absent sample 3 rfl⟩

/-- C10 (delete is exact): on a consistent state, for every key `k`, present or
not, `Del k` returns a state on which `Get k` returns `(nil, false)` (and leaves
that state as it is). -/
theorem C10_del_then_get (c : LRUCache K V σ) (h : Inv c) (k : K) :
    ∃ d, Del c k = some d ∧ Get d k = some (d, (none, false)) := by
  cases hk : c.itemCache k with
  | none => exact ⟨c, Del_absent c k hk, Get_absent c k hk⟩
  | some e =>
    obtain ⟨he, x, hx, hxk⟩ := h.lookup hk
    subst hxk
    refine ⟨_, Del_present c x.key e x hk hx, ?_⟩
    apply Get_absent
    simp [mapDelete]

/-- Witness of C10: `Del(2)` then `Get(2)` on `sample`, which holds key 2. -/
theorem C10_del_then_get_witness :
    Inv sample ∧ (sample.itemCache 2).isSome ∧
    ∃ d, Del sample 2 = some d ∧ Get d 2 = some (d, (none, false)) :=
  ⟨sample_inv, rfl, C10_del_then_get sample sample_inv 2⟩

/-- C11 (eviction callback fidelity): for a cache built with the callback `f`
and every sequence of calls, after each prefix the environment is the initial one
with `f` applied, in order, once to each pair expelled by the capacity check of
an `Add` (`expelledOf os`).  In the state reached, the next `Add k v` invokes the
callback exactly when `k` is absent and the push exceeds the capacity, once, with
the key and value of the entry `x` then at the back, which is removed from the
list; an `Add` of a present key, a `Get` and a `Del` leave the environment as it
is. -/
theorem C11_callback_fidelity (w : σ) (opts : List (option K V σ))
    (hopts : ∀ o ∈ opts, IsOption o) (f : K → V → σ → σ)
    (hcb : (NewLRU w opts).expelCallback = some f) (ops : List (Op K V)) (n : Nat) :
    ∃ c os, runObs (NewLRU w opts) (ops.take n) = some (c, os) ∧
      run (NewLRU w opts) (ops.take n) = some c ∧
      c.world = (expelledOf os).foldl (fun w p => f p.1 p.2 w) w ∧
      (∀ k v, ∃ s ev, AddTrace c k v = some (s, ev) ∧ Add c k v = some (invoke (s, ev)) ∧
        (ev = none ↔ (c.itemCache k ≠ none ∨ ((Len c + 1 : Nat) : Int) ≤ c.size)) ∧
        (ev = none → (invoke (s, ev)).world = c.world) ∧
        (∀ x, ev = some x →
          ({ key := k, val := v } :: entries c).getLast? = some x ∧
          entries (invoke (s, ev)) = ({ key := k, val := v } :: entries c).dropLast ∧
          x.key ∉ keys (invoke (s, ev)) ∧
          (invoke (s, ev)).world = f x.key x.val c.world)) ∧
      (∀ k, ∃ d r, Get c k = some (d, r) ∧ d.world = c.world) ∧
      (∀ k, ∃ d, Del c k = some d ∧ d.world = c.world) := by
  obtain ⟨c, os, hobs, hrun, hi, -, hc, -, hw⟩ :=
    runObs_spec (NewLRU_inv w opts hopts) (ops.take n)
  have hw0 : (NewLRU w opts).world = w := by
    obtain ⟨m, cb, he⟩ := NewLRU_eq w opts hopts
    rw [he]
  rw [hcb] at hc
  refine ⟨c, os, hobs, hrun, ?_, ?_, ?_, ?_⟩
  · rw [hw, hcb, hw0]
    rfl
  · intro k v
    obtain ⟨s, ev, ht, his, hs, hcs, hws, -, hcase⟩ := AddTrace_cases hi k v
    refine ⟨s, ev, ht, by simp [Add_eq_invoke, ht], ?_, ?_, ?_⟩
    · rcases hcase with ⟨e, hk, hev, -⟩ | ⟨hk, hfit, hev, -⟩ | ⟨hk, hover, x, hev, -⟩
      · simp [hk, hev]
      · exact ⟨fun _ => Or.inr hfit, fun _ => hev⟩
      · simp only [hev, hk]
        constructor
        · intro hc; cases hc
        · rintro (hc | hc)
          · exact absurd rfl hc
          · exact absurd hc (not_le.2 hover)
    · rintro rfl
      exact hws
    · rintro x rfl
      rcases hcase with ⟨e, hk, hev, -⟩ | ⟨hk, hfit, hev, -⟩ | ⟨hk, hover, y, hev, hlast, hent⟩
      · cases hev
      · cases hev
      · cases hev
        refine ⟨hlast, by rw [entries_invoke]; exact hent, ?_, ?_⟩
        · unfold keys
          rw [entries_invoke]
          show x.key ∉ (entries s).map entry.key
          rw [hent]
          exact last_key_not_mem_dropLast _ x (hi.push_keys_nodup k v hk) hlast
        · simp [invoke, hcs, hc, hws, fire]
  · intro k
    obtain ⟨d, r, hg, -, -, -, hwd, -⟩ := Get_total hi k
    exact ⟨d, r, hg, hwd⟩
  · intro k
    obtain ⟨d, hd, -, -, -, hwd, -⟩ := Del_total hi k
    exact ⟨d, hd, hwd⟩

/-- Witness of C11: capacity 1 with the recording callback; the three adds expel
the entries of keys 1 and 2 in that order. -/
theorem C11_callback_fidelity_witness :
    (∀ o ∈ [(WithCacheSize 1 : option Nat Nat (List (Nat × Nat))),
        WithExpelCallback (some recordCall)], IsOption o) ∧
    (NewLRU ([] : List (Nat × Nat)) [WithCacheSize 1,
        WithExpelCallback (some recordCall)]).expelCallback = some recordCall ∧
    ∃ c os, runObs (NewLRU ([] : List (Nat × Nat)) [WithCacheSize 1,
        WithExpelCallback (some recordCall)])
        ([Op.add 1 10, Op.add 2 20, Op.add 3 30].take 3) = some (c, os) ∧
      c.world = (expelledOf os).foldl (fun w p => recordCall p.1 p.2 w) [] :=
  ⟨fun o ho => by
      rcases List.mem_cons.1 ho with rfl | ho
      · exact Or.inl ⟨1, rfl⟩
      · exact Or.inr ⟨some recordCall, List.mem_singleton.1 ho⟩,
   rfl,
   (C11_callback_fidelity [] [WithCacheSize 1, WithExpelCallback (some recordCall)]
      (fun o ho => by
        rcases List.mem_cons.1 ho with rfl | ho
        · exact Or.inl ⟨1, rfl⟩
        · exact Or.inr ⟨some recordCall, List.mem_singleton.1 ho⟩)
      recordCall rfl [Op.add 1 10, Op.add 2 20, Op.add 3 30] 3).imp fun _ hc =>
        hc.imp fun _ hh => ⟨hh.1, hh.2.2.1⟩⟩

/-- C13 (concrete scenario): on `NewLRU(WithCacheSize(2))` without callback, the
run `Add("a",1)`, `Add("b",2)`, `Add("c",3)`, `Get("b")`, `Add("d",4)`, `Del("b")`,
`Get("b")` gives: after the second `Add` the entries `b:2, a:1` in this order;
`Add("c",3)` expels `a:1` and leaves `c:3, b:2`; `Get("b")` returns `(2, true)`
and the order becomes `b, c`; `Add("d",4)` expels `c:3` and leaves `d:4, b:2`;
after `Del("b")` the last `Get("b")` returns `(nil, false)`. -/
theorem C13_scenario :
    scenarioCache.size = 2 ∧ scenarioCache.expelCallback = none ∧
    scenarioAfter 2 = some
      ([{ key := "b", val := 2 }, { key := "a", val := 1 }],
       [Obs.added none, Obs.added none]) ∧
    scenarioAfter 3 = some
      ([{ key := "c", val := 3 }, { key := "b", val := 2 }],
       [Obs.added none, Obs.added none, Obs.added (some ("a", 1))]) ∧
    scenarioAfter 4 = some
      ([{ key := "b", val := 2 }, { key := "c", val := 3 }],
       [Obs.added none, Obs.added none, Obs.added (some ("a", 1)), Obs.got (some 2) true]) ∧
    scenarioAfter 5 = some
      ([{ key := "d", val := 4 }, { key := "b", val := 2 }],
       [Obs.added none, Obs.added none, Obs.added (some ("a", 1)), Obs.got (some 2) true,
        Obs.added (some ("c", 3))]) ∧
    scenarioAfter 7 = some
      ([{ key := "d", val := 4 }],
       [Obs.added none, Obs.added none, Obs.added (some ("a", 1)), Obs.got (some 2) true,
        Obs.added (some ("c", 3)), Obs.deleted, Obs.got none false]) := by
  refine ⟨rfl, rfl, ?_, ?_, ?_, ?_, ?_⟩ <;> decide

/-- C14 (construction and default capacity): `NewLRU()` is the empty cache
(empty list, empty index, empty memory, nil callback) of capacity 1024, and
`NewLRU(WithCacheSize(n))` the empty cache of capacity `n`.  On `NewLRU()`,
adding up to 1024 distinct keys keeps them all (the entries are the pairs added,
latest first), and after 1024 distinct keys `p0, kvs` the `Add` of one more
distinct key `p` removes exactly the first key added, `p0`. -/
theorem C14_construction (w : σ) :
    NewLRU w ([] : List (option K V σ)) =
      { size := 1024, itemList := [], itemCache := fun _ => none,
        expelCallback := none, heap := [], world := w } ∧
    (∀ n : Int, NewLRU w [(WithCacheSize n : option K V σ)] =
      { size := n, itemList := [], itemCache := fun _ => none,
        expelCallback := none, heap := [], world := w }) ∧
    (∀ kvs : List (K × V), (kvs.map Prod.fst).Nodup → kvs.length ≤ 1024 →
      ∃ c, run (NewLRU w ([] : List (option K V σ))) (addOps kvs) = some c ∧
        entries c = kvs.reverse.map entryOf ∧ c.world = w) ∧
    (∀ (p0 : K × V) (kvs : List (K × V)) (p : K × V),
      ((p0 :: kvs ++ [p]).map Prod.fst).Nodup → kvs.length = 1023 →
      ∃ c d, run (NewLRU w ([] : List (option K V σ))) (addOps (p0 :: kvs)) = some c ∧
        entries c = kvs.reverse.map entryOf ++ [entryOf p0] ∧
        Add c p.1 p.2 = some d ∧
        entries d = entryOf p :: kvs.reverse.map entryOf ∧
        p0.1 ∉ keys d ∧ (∀ q ∈ kvs, q.1 ∈ keys d)) := by
  have h0 : Inv (NewLRU w ([] : List (option K V σ))) :=
    NewLRU_inv w [] (fun o ho => by cases ho)
  have hfill : ∀ kvs : List (K × V), (kvs.map Prod.fst).Nodup → kvs.length ≤ 1024 →
      ∃ c, run (NewLRU w ([] : List (option K V σ))) (addOps kvs) = some c ∧ Inv c ∧
        c.size = 1024 ∧ entries c = kvs.reverse.map entryOf ∧ c.world = w := by
    intro kvs hnd hlen
    obtain ⟨c, hc, hi, hs, -, hw, hent⟩ := run_addOps_fit h0 kvs hnd (fun _ _ => rfl)
      (by
        show ((0 + kvs.length : Nat) : Int) ≤ 1024
        omega)
    exact ⟨c, hc, hi, hs, by rw [hent]; exact List.append_nil _, hw⟩
  refine ⟨rfl, fun n => rfl, ?_, ?_⟩
  · intro kvs hnd hlen
    obtain ⟨c, hc, -, -, hent, hw⟩ := hfill kvs hnd hlen
    exact ⟨c, hc, hent, hw⟩
  · intro p0 kvs p hnd hlen
    have hnd1 : ((p0 :: kvs).map Prod.fst).Nodup := by
      have : (p0 :: kvs ++ [p]).map Prod.fst = (p0 :: kvs).map Prod.fst ++ [p.1] := by simp
      rw [this] at hnd
      exact (List.nodup_append.1 hnd).1
    have hpn : p.1 ∉ (p0 :: kvs).map Prod.fst := by
      have : (p0 :: kvs ++ [p]).map Prod.fst = (p0 :: kvs).map Prod.fst ++ [p.1] := by simp
      rw [this] at hnd
      intro hm
      exact (List.nodup_append.1 hnd).2.2 hm (by simp)
    obtain ⟨c, hc, hi, hs, hent, -⟩ := hfill (p0 :: kvs) hnd1 (by simp [hlen])
    have hentc : entries c = kvs.reverse.map entryOf ++ [entryOf p0] := by
      rw [hent]; simp
    have hkeysc : keys c = (kvs.reverse.map Prod.fst) ++ [p0.1] := by
      unfold keys
      rw [hentc]
      simp [entryOf, List.map_map, Function.comp_def]
    have hpabs : c.itemCache p.1 = none := by
      rw [hi.not_mem_keys_iff, hkeysc]
      intro hm
      apply hpn
      rcases List.mem_append.1 hm with hm | hm
      · rw [List.map_reverse, List.mem_reverse] at hm
        exact List.mem_cons_of_mem _ hm
      · rw [List.mem_singleton.1 hm]
        exact List.mem_cons_self _ _
    obtain ⟨d, hadd, hid, -, -, hcase⟩ := Add_absent_keys hi p.1 p.2 hpabs
    have hL : Len c = 1024 := by
      rw [← hi.entries_length, hentc]
      simp [hlen]
    have hentd : entries d = entryOf p :: kvs.reverse.map entryOf := by
      rcases hcase with ⟨hfit, -, -⟩ | ⟨-, hentd⟩
      · rw [hL, hs] at hfit
        norm_num at hfit
      · rw [hentd, hentc]
        show (entryOf p :: (kvs.reverse.map entryOf ++ [entryOf p0])).dropLast = _
        rw [← List.cons_append, List.dropLast_concat]
    have hkeysd : keys d = p.1 :: kvs.reverse.map Prod.fst := by
      unfold keys
      rw [hentd]
      simp [entryOf, List.map_map, Function.comp_def]
    refine ⟨c, d, hc, hentc, hadd, hentd, ?_, ?_⟩
    · rw [hkeysd]
      intro hm
      rcases List.mem_cons.1 hm with hm | hm
      · exact hpn (by rw [← hm]; exact List.mem_cons_self _ _)
      · rw [List.map_reverse, List.mem_reverse] at hm
        rw [List.map_cons, List.nodup_cons] at hnd1
        exact hnd1.1 hm
    · intro q hq
      rw [hkeysd]
      refine List.mem_cons_of_mem _ ?_
      rw [List.map_reverse, List.mem_reverse]
      exact List.mem_map.2 ⟨q, hq, rfl⟩

/-- Witness of C14: the keys 0 to 1023 fill `NewLRU()`, adding key 1024 removes
key 0. -/
theorem C14_construction_witness :
    ((((0, 0) : Nat × Nat) :: (List.range' 1 1023).map (fun i => (i, i)) ++ [(1024, 0)]).map
      Prod.fst).Nodup ∧
    ((List.range' 1 1023).map (fun i => (i, i))).length = 1023 ∧
    ∃ c d, run (NewLRU () ([] : List (option Nat Nat Unit)))
        (addOps ((0, 0) :: (List.range' 1 1023).map (fun i => (i, i)))) = some c ∧
      Add c 1024 0 = some d ∧ 0 ∉ keys d :=
  ⟨rangeKeys_nodup, by simp,
   ((C14_construction ()).2.2.2 (0, 0) ((List.range' 1 1023).map (fun i => (i, i))) (1024, 0)
      rangeKeys_nodup (by simp)).imp fun _ hc =>
        hc.imp fun _ hd => ⟨hd.1, hd.2.2.1, hd.2.2.2.2.1⟩⟩

/-- C15, counterexample: on `NewLRU(WithCacheSize(-1))` the capacity bound fails
at every point where the write lock is not held: before any step, and after the
interleaving `Add(1, 10)`, lookup of key 1 by thread 0, promote by thread 0, the
cache holds 0 entries, which is more than its capacity -1. -/
theorem C15_interleaving_consistency_counterexample :
    (NewLRU () [(WithCacheSize (-1) : option Nat Nat Unit)]).size = -1 ∧
    ¬ ((Len (NewLRU () [(WithCacheSize (-1) : option Nat Nat Unit)]) : Int) ≤
        (NewLRU () [(WithCacheSize (-1) : option Nat Nat Unit)]).size) ∧
    ∃ s, sysRun { cache := NewLRU () [(WithCacheSize (-1) : option Nat Nat Unit)],
                  pending := fun _ => none }
        [Event.add 1 10, Event.lookup 0 1, Event.promote 0] = some s ∧
      Len s.cache = 0 ∧ s.cache.size = -1 ∧ ¬ ((Len s.cache : Int) ≤ s.cache.size) :=
  ⟨rfl, by decide, _, rfl, rfl, rfl, by decide⟩

/-- C15, amended (consistency under interleaving): in the model where `Add` and
`Del` are one atomic step each and `Get` is two (the index lookup, then the
move-to-front of the element found), for every cache built by `NewLRU` and every
sequence of atomic steps of any threads, after each step (each prefix
`evs.take n`) no step has panicked and the cache has (a) no key twice in the
recency list, (b) the same keys in index and list, (c) every index entry for `k`
referring to a linked element with key `k`, and, when the capacity is not
negative, at most `capacity` entries.  This includes the interleavings where the
element found by a lookup is removed before its promote step. -/
theorem C15_interleaving_consistency (w : σ) (opts : List (option K V σ))
    (hopts : ∀ o ∈ opts, IsOption o) (evs : List (Event K V)) (n : Nat) :
    ∃ s, sysRun { cache := NewLRU w opts, pending := fun _ => none } (evs.take n) = some s ∧
      (keys s.cache).Nodup ∧
      (∀ k, (s.cache.itemCache k).isSome ↔ k ∈ keys s.cache) ∧
      (∀ k e, s.cache.itemCache k = some e →
        e ∈ s.cache.itemList ∧ ∃ x, deref s.cache e = some x ∧ x.key = k) ∧
      (0 ≤ (NewLRU w opts).size → (Len s.cache : Int) ≤ (NewLRU w opts).size) := by
  have h0 : SysInv ({ cache := NewLRU w opts, pending := fun _ => none } : Sys K V σ) :=
    ⟨NewLRU_inv w opts hopts, fun t item ht => by cases ht⟩
  obtain ⟨s, hs, ⟨hi, -⟩, hsize, hl⟩ := sysRun_inv h0 (evs.take n)
  refine ⟨s, hs, hi.keys_nodup, hi.mem_keys_iff, fun k e hk => hi.lookup hk, ?_⟩
  intro hpos
  have hsize2 : s.cache.size = (NewLRU w opts).size := hsize
  rw [← hsize2]
  apply hl
  show (Len (NewLRU w opts) : Int) ≤ (NewLRU w opts).size
  rw [NewLRU_Len w opts hopts]
  simpa using hpos

/-- Witness of C15: thread 0 looks up key 1, key 1 is deleted, thread 0 promotes
the element it found. -/
theorem C15_interleaving_consistency_witness :
    (∀ o ∈ [(WithCacheSize 2 : option Nat Nat Unit)], IsOption o) ∧
    ∃ s, sysRun { cache := NewLRU () [(WithCacheSize 2 : option Nat Nat Unit)],
                  pending := fun _ => none }
        ([Event.add 1 10, Event.lookup 0 1, Event.del 1, Event.promote 0].take 4) = some s ∧
      (keys s.cache).Nodup ∧
      (∀ k, (s.cache.itemCache k).isSome ↔ k ∈ keys s.cache) :=
  ⟨fun _ ho => Or.inl ⟨2, List.mem_singleton.1 ho⟩,
   (C15_interleaving_consistency () [WithCacheSize 2]
      (fun _ ho => Or.inl ⟨2, List.mem_singleton.1 ho⟩)
      [Event.add 1 10, Event.lookup 0 1, Event.del 1, Event.promote 0] 4).imp fun _ hs =>
        ⟨hs.1, hs.2.1, hs.2.2.1⟩⟩

/-- C17 (Get does not re-validate): on a consistent state where the lookup phase
of `Get k` finds element `item`, holding entry `x`: if `Del k` runs next, or an
`Add` that expels the entry of key `k`, then `item` is no longer linked and `k` no
longer in the index, and yet the promote phase of the `Get` returns
`(x.val, true)`, the value of the removed entry, and leaves the state exactly as
the removal left it (the element is not linked again, the index not restored). -/
theorem C17_get_no_revalidation (c : LRUCache K V σ) (h : Inv c) (k : K) (item : Nat)
    (x : entry K V) (hk : GetLookup c k = some item) (hx : deref c item = some x) :
    (∃ d, Del c k = some d ∧ item ∉ d.itemList ∧ d.itemCache k = none ∧
      GetPromote d item = some (d, (some x.val, true))) ∧
    (∀ k2 v2 s y, AddTrace c k2 v2 = some (s, some y) → y.key = k →
      ∃ d, Add c k2 v2 = some d ∧ y = x ∧ item ∉ d.itemList ∧ d.itemCache k = none ∧
        GetPromote d item = some (d, (some x.val, true))) := by
  constructor
  · obtain ⟨d, hd, hnot, hnone, hdx, -⟩ := Del_stale h k item x hk hx
    exact ⟨d, hd, hnot, hnone, GetPromote_stale d item x hnot hdx⟩
  · intro k2 v2 s y ht hy
    obtain ⟨hyx, hnot, hnone, hdx⟩ := evict_stale h k item x hk hx k2 v2 s y ht hy
    obtain ⟨hl, hm, hh, -, -⟩ := invoke_frame (s, some y)
    have hnot2 : item ∉ (invoke (s, some y)).itemList := by rw [hl]; exact hnot
    have hdx2 : deref (invoke (s, some y)) item = some x := by
      unfold deref
      rw [hh]
      exact hdx
    refine ⟨invoke (s, some y), by simp [Add_eq_invoke, ht], hyx, hnot2, ?_,
      GetPromote_stale _ item x hnot2 hdx2⟩
    rw [hm]
    exact hnone

/-- Witness of C17: on `sample` the lookup of key 1 finds element 0 holding
`(1, 10)`; after `Del(1)` the promote phase still returns `(10, true)`. -/
theorem C17_get_no_revalidation_witness :
    Inv sample ∧ GetLookup sample 1 = some 0 ∧
    deref sample 0 = some { key := 1, val := 10 } ∧
    ∃ d, Del sample 1 = some d ∧ 0 ∉ d.itemList ∧ d.itemCache 1 = none ∧
      GetPromote d 0 = some (d, (some 10, true)) :=
  ⟨sample_inv, rfl, rfl,
   (C17_get_no_revalidation sample sample_inv 1 0 { key := 1, val := 10 } rfl rfl).1⟩

/-- C16, counterexample: on a cache of capacity 0 with a callback, `Add(1, 10)`
expels the entry `(1, 10)` it has just pushed; at the moment the callback is
invoked the recency list is empty, so the newly added key is not at its front. -/
theorem C16_callback_state_counterexample :
    Inv zeroCache ∧ zeroCache.expelCallback = some recordCall ∧
    ∃ s, AddTrace zeroCache 1 10 = some (s, some { key := 1, val := 10 }) ∧
      keys s = [] ∧ (keys s).head? ≠ some 1 ∧ s.itemCache 1 = none :=
  ⟨zeroCache_inv, rfl, _, rfl, rfl, by decide, rfl⟩

/-- C16, amended (callback runs after the structures are updated): on a
consistent state with callback `f`, whenever `Add k v` expels an entry `x`, the
state `s` at the moment the callback is invoked already excludes the key of `x`
from the recency list and from the index and is consistent, the expelled `x` is
the entry that was at the back, and the callback is invoked with exactly
`(x.key, x.val)`; when the capacity is at least 1, `s` already has the new entry
`(k, v)` at the front of the list and `k` in the index. -/
theorem C16_callback_state (c : LRUCache K V σ) (h : Inv c) (f : K → V → σ → σ)
    (hcb : c.expelCallback = some f) (k : K) (v : V) (s : LRUCache K V σ) (x : entry K V)
    (ht : AddTrace c k v = some (s, some x)) :
    x.key ∉ keys s ∧ s.itemCache x.key = none ∧ Inv s ∧
    ({ key := k, val := v } :: entries c).getLast? = some x ∧
    Add c k v = some (invoke (s, some x)) ∧
    (invoke (s, some x)).world = f x.key x.val s.world ∧ s.world = c.world ∧
    (1 ≤ c.size →
      x ∈ entries c ∧ (entries s).head? = some { key := k, val := v } ∧
      (keys s).head? = some k ∧ (s.itemCache k).isSome) := by
  obtain ⟨s1, ev1, ht1, his, hs, hcs, hws, -, hcase⟩ := AddTrace_cases h k v
  rw [ht] at ht1
  simp only [Option.some.injEq, Prod.mk.injEq] at ht1
  obtain ⟨hs1, hev1⟩ := ht1
  subst hs1
  subst hev1
  rcases hcase with ⟨e, -, hev, -⟩ | ⟨-, -, hev, -⟩ | ⟨hk, hover, y, hev, hlast, hent⟩
  · cases hev
  · cases hev
  · cases hev
    have hnot : x.key ∉ keys s := by
      unfold keys
      rw [hent]
      exact last_key_not_mem_dropLast _ x (h.push_keys_nodup k v hk) hlast
    refine ⟨hnot, (his.not_mem_keys_iff _).2 hnot, his, hlast, by simp [Add_eq_invoke, ht],
      by simp [invoke, hcs, hcb, fire], hws, ?_⟩
    intro hpos
    have hlen : 1 ≤ (entries c).length := by
      rw [h.entries_length]
      unfold Len at hover ⊢
      have : (1 : Int) < ((c.itemList.length + 1 : Nat) : Int) := lt_of_le_of_lt hpos hover
      omega
    cases hE : entries c with
    | nil => rw [hE] at hlen; simp at hlen
    | cons a t =>
      rw [hE] at hent hlast
      rw [List.getLast?_cons_cons] at hlast
      have hhead : (entries s).head? = some { key := k, val := v } := by
        rw [hent]; simp
      have hkhead : (keys s).head? = some k := by
        unfold keys
        rw [hent]; simp
      refine ⟨List.mem_of_getLast?_eq_some hlast, hhead, hkhead, ?_⟩
      rw [his.mem_keys_iff]
      exact List.mem_of_mem_head? hkhead

/-- Witness of C16 (amended): `Add(3, 30)` on the full `sample` cache expels
`(1, 10)`. -/
theorem C16_callback_state_witness :
    Inv sample ∧ sample.expelCallback = some recordCall ∧
    ∃ s, AddTrace sample 3 30 = some (s, some { key := 1, val := 10 }) ∧
      1 ∉ keys s ∧ s.itemCache 1 = none ∧
      (invoke (s, some { key := 1, val := 10 })).world = recordCall 1 10 s.world :=
  ⟨sample_inv, rfl, _, rfl,
   (C16_callback_state sample sample_inv recordCall rfl 3 30 _ { key := 1, val := 10 } rfl).1,
   (C16_callback_state sample sample_inv recordCall rfl 3 30 _ { key := 1, val := 10 }
      rfl).2.1,
   (C16_callback_state sample sample_inv recordCall rfl 3 30 _ { key := 1, val := 10 }
      rfl).2.2.2.2.2.1⟩

/-- C18 (non-positive capacity): `NewLRU` with a capacity `n ≤ 0` is accepted,
and for every sequence of calls, after each prefix: no call has panicked, the
recency list and the index are empty, every call showed what `vanishObs` says
(each `Add(k, v)` expelled the very pair `(k, v)` it pushed, each `Get` returned
`(nil, false)`), the callback, if configured, was invoked exactly on the pairs
added, in order, and the next `Get` misses; for `n < 0` the number of entries
held, 0, exceeds the capacity. -/
theorem C18_nonpositive_capacity (w : σ) (opts : List (option K V σ))
    (hopts : ∀ o ∈ opts, IsOption o) (hsz : (NewLRU w opts).size ≤ 0)
    (ops : List (Op K V)) (n : Nat) :
    ∃ c, runObs (NewLRU w opts) (ops.take n) = some (c, (ops.take n).map vanishObs) ∧
      run (NewLRU w opts) (ops.take n) = some c ∧
      c.itemList = [] ∧ (∀ k, c.itemCache k = none) ∧ entries c = [] ∧
      (∀ k, Get c k = some (c, (none, false))) ∧
      c.world = fireAll (NewLRU w opts).expelCallback
        (expelledOf ((ops.take n).map vanishObs)) w ∧
      ((NewLRU w opts).size < 0 → c.size < (Len c : Int)) := by
  have h0 := NewLRU_inv w opts hopts
  have hw0 : (NewLRU w opts).world = w := by
    obtain ⟨m, cb, he⟩ := NewLRU_eq w opts hopts
    rw [he]
  obtain ⟨c, hc, hi, hl, hs, -, hw⟩ :=
    runObs_vanish h0 (NewLRU_Len w opts hopts) hsz (ops.take n)
  obtain ⟨d, os, hd, hrun, -⟩ := runObs_spec h0 (ops.take n)
  rw [hc] at hd
  simp only [Option.some.injEq, Prod.mk.injEq] at hd
  obtain ⟨hcd, -⟩ := hd
  subst hcd
  obtain ⟨hent, hnone⟩ := hi.empty_of_Len hl
  refine ⟨c, hc, hrun, List.eq_nil_of_length_eq_zero hl, hnone, hent,
    fun k => Get_absent c k (hnone k), by rw [hw, hw0], ?_⟩
  intro hneg
  rw [hl, hs]
  simpa using hneg

/-- Witness of C18: capacity 0 with the recording callback. -/
theorem C18_nonpositive_capacity_witness :
    (∀ o ∈ [(WithCacheSize 0 : option Nat Nat (List (Nat × Nat))),
        WithExpelCallback (some recordCall)], IsOption o) ∧
    (NewLRU ([] : List (Nat × Nat)) [WithCacheSize 0,
        WithExpelCallback (some recordCall)]).size ≤ 0 ∧
    ∃ c, runObs (NewLRU ([] : List (Nat × Nat)) [WithCacheSize 0,
        WithExpelCallback (some recordCall)])
        ([Op.add 1 10, Op.get 1, Op.add 2 20].take 3) =
          some (c, ([Op.add 1 10, Op.get 1, Op.add 2 20].take 3).map vanishObs) ∧
      c.itemList = [] :=
  ⟨fun o ho => by
      rcases List.mem_cons.1 ho with rfl | ho
      · exact Or.inl ⟨0, rfl⟩
      · exact Or.inr ⟨some recordCall, List.mem_singleton.1 ho⟩,
   by decide,
   (C18_nonpositive_capacity [] [WithCacheSize 0, WithExpelCallback (some recordCall)]
      (fun o ho => by
        rcases List.mem_cons.1 ho with rfl | ho
        · exact Or.inl ⟨0, rfl⟩
        · exact Or.inr ⟨some recordCall, List.mem_singleton.1 ho⟩)
      (by decide) [Op.add 1 10, Op.get 1, Op.add 2 20] 3).imp fun _ hc =>
        ⟨hc.1, hc.2.2.1⟩⟩

/-- C19 (Add/Get round trip): on a consistent state of capacity at least 1, for
every key `k` and value `v`, present or not, `Add k v` returns a state that holds
`k`, on which `Get k` returns `(v, true)`; and if that `Add` expels an entry `x`,
then `x` is an entry held before and its key is not `k`. -/
theorem C19_add_get_round_trip (c : LRUCache K V σ) (h : Inv c) (hpos : 1 ≤ c.size)
    (k : K) (v : V) :
    ∃ d e, Add c k v = some d ∧ Get d k = some (e, (some v, true)) ∧ k ∈ keys d ∧
      (∀ s x, AddTrace c k v = some (s, some x) → x ∈ entries c ∧ x.key ≠ k) := by
  obtain ⟨s, ev, ht, his, hs, hcs, hws, -, hcase⟩ := AddTrace_cases h k v
  have hid : Inv (invoke (s, ev)) := inv_invoke his
  have hhead : (entries s).head? = some { key := k, val := v } ∧
      ∀ x, ev = some x → x ∈ entries c ∧ x.key ≠ k := by
    rcases hcase with ⟨e, -, hev, hent⟩ | ⟨-, -, hev, hent⟩ | ⟨hk, hover, x, hev, hlast, hent⟩
    · exact ⟨by rw [hent]; rfl, fun x hx => by rw [hev] at hx; cases hx⟩
    · exact ⟨by rw [hent]; rfl, fun x hx => by rw [hev] at hx; cases hx⟩
    · have hlen : 1 ≤ (entries c).length := by
        rw [h.entries_length]
        unfold Len at hover ⊢
        have : (1 : Int) < ((c.itemList.length + 1 : Nat) : Int) := lt_of_le_of_lt hpos hover
        omega
      cases hE : entries c with
      | nil => rw [hE] at hlen; simp at hlen
      | cons a t =>
        rw [hE] at hent hlast
        rw [List.getLast?_cons_cons] at hlast
        refine ⟨by rw [hent]; simp, ?_⟩
        intro x1 hx1
        rw [hev] at hx1
        cases hx1
        have hxm : x ∈ entries c := by rw [hE]; exact List.mem_of_getLast?_eq_some hlast
        refine ⟨by rw [← hE]; exact hxm, ?_⟩
        intro hxk
        have : k ∈ keys c := List.mem_map.2 ⟨x, hxm, hxk⟩
        exact (h.not_mem_keys_iff k).1 hk this
  have hmem : ({ key := k, val := v } : entry K V) ∈ entries (invoke (s, ev)) := by
    rw [entries_invoke]
    exact List.mem_of_mem_head? hhead.1
  obtain ⟨e, hke, hxe⟩ := (hid.mem_entries _).1 hmem
  have hel := ((hid.index _ _).1 hke).1
  refine ⟨invoke (s, ev), _, by simp [Add_eq_invoke, ht],
    Get_present (invoke (s, ev)) k e _ hke hel hxe, List.mem_map.2 ⟨_, hmem, rfl⟩, ?_⟩
  intro s1 x1 ht1
  rw [ht] at ht1
  simp only [Option.some.injEq, Prod.mk.injEq] at ht1
  exact hhead.2 x1 ht1.2

/-- Witness of C19: `Add(3, 30)` on the full `sample` cache, then `Get(3)`. -/
theorem C19_add_get_round_trip_witness :
    Inv sample ∧ 1 ≤ sample.size ∧
    ∃ d e, Add sample 3 30 = some d ∧ Get d 3 = some (e, (some 30, true)) ∧ 3 ∈ keys d :=
  ⟨sample_inv, by decide,
   (C19_add_get_round_trip sample sample_inv (by decide) 3 30).imp fun _ hd =>
     hd.imp fun _ he => ⟨he.1, he.2.1, he.2.2.1⟩⟩

/-- C20 (refinement of a plain recency list): for every capacity and every
sequence of calls from the empty cache, after each prefix the implementation has
not panicked and the reference model (`modelAdd`, `modelGet`, `modelDel` on a list
of pairs, most recent first) run on the same calls makes the same observations in
the same order (the same `Get` results, the same pairs expelled by `Add`) and ends
with the list that the implementation's recency list reads front to back; this
list has no key twice; and the callback, if configured, has been invoked exactly
on the expelled pairs of the model, in order. -/
theorem C20_refinement (w : σ) (opts : List (option K V σ))
    (hopts : ∀ o ∈ opts, IsOption o) (ops : List (Op K V)) (n : Nat) :
    ∃ c os, runObs (NewLRU w opts) (ops.take n) = some (c, os) ∧
      run (NewLRU w opts) (ops.take n) = some c ∧
      modelRun (NewLRU w opts).size [] (ops.take n) = (pairs c, os) ∧
      ((modelRun (NewLRU w opts).size [] (ops.take n)).1.map Prod.fst).Nodup ∧
      c.world = fireAll (NewLRU w opts).expelCallback
        (expelledOf (modelRun (NewLRU w opts).size [] (ops.take n)).2) w := by
  have h0 := NewLRU_inv w opts hopts
  have hw0 : (NewLRU w opts).world = w := by
    obtain ⟨m, cb, he⟩ := NewLRU_eq w opts hopts
    rw [he]
  have hp0 : pairs (NewLRU w opts) = [] := by
    obtain ⟨m, cb, he⟩ := NewLRU_eq w opts hopts
    rw [he]
    rfl
  obtain ⟨c, os, hc, hi, -, -, hw, hm⟩ :=
    runObs_refines h0 (Or.inr (NewLRU_Len w opts hopts)) (ops.take n)
  obtain ⟨d, os1, hd, hrun, -⟩ := runObs_spec h0 (ops.take n)
  rw [hc] at hd
  simp only [Option.some.injEq, Prod.mk.injEq] at hd
  obtain ⟨hcd, -⟩ := hd
  subst hcd
  rw [hp0] at hm
  refine ⟨c, os, hc, hrun, hm, ?_, ?_⟩
  · rw [hm]
    have : (pairs c).map Prod.fst = keys c := by
      unfold pairs keys
      rw [List.map_map]
      rfl
    show ((pairs c).map Prod.fst).Nodup
    rw [this]
    exact hi.keys_nodup
  · rw [hm, hw, hw0]

/-- Witness of C20: capacity 2 with the recording callback, six calls. -/
theorem C20_refinement_witness :
    (∀ o ∈ [(WithCacheSize 2 : option Nat Nat (List (Nat × Nat))),
        WithExpelCallback (some recordCall)], IsOption o) ∧
    ∃ c os, runObs (NewLRU ([] : List (Nat × Nat)) [WithCacheSize 2,
        WithExpelCallback (some recordCall)])
        ([Op.add 1 10, Op.add 2 20, Op.get 1, Op.add 3 30, Op.del 1, Op.get 2].take 6) =
          some (c, os) ∧
      modelRun (NewLRU ([] : List (Nat × Nat)) [WithCacheSize 2,
          WithExpelCallback (some recordCall)]).size []
        ([Op.add 1 10, Op.add 2 20, Op.get 1, Op.add 3 30, Op.del 1, Op.get 2].take 6) =
          (pairs c, os) :=
  ⟨fun o ho => by
      rcases List.mem_cons.1 ho with rfl | ho
      · exact Or.inl ⟨2, rfl⟩
      · exact Or.inr ⟨some recordCall, List.mem_singleton.1 ho⟩,
   (C20_refinement [] [WithCacheSize 2, WithExpelCallback (some recordCall)]
      (fun o ho => by
        rcases List.mem_cons.1 ho with rfl | ho
        · exact Or.inl ⟨2, rfl⟩
        · exact Or.inr ⟨some recordCall, List.mem_singleton.1 ho⟩)
      [Op.add 1 10, Op.add 2 20, Op.get 1, Op.add 3 30, Op.del 1, Op.get 2] 6).imp
        fun _ hc => hc.imp fun _ hh => ⟨hh.1, hh.2.2.1⟩⟩

end claims

end lru
